import Mathlib

/-!
A shallow embedding of the `errors` C++ library (error.h / error_internal.h /
error.cc / result.h) and proofs about its specified behaviour.

C++ `std::string` values are modelled as byte lists (`Bytes`).  An `Error`
handle is the tagged-pointer value: nil, a non-owning sentinel reference, or
an owning reference to a heap node.  Heap nodes (`internal::ErrorImpl`
objects) live in an explicit `Heap`; node identity is the allocation id,
which models pointer identity.  Reference counts are carried on nodes so
that copy-on-write (`Error::get_mutable_impl`) can be modelled faithfully.
Chain-walking loops (`for current = this; current; current = current->unwrap()`)
are modelled with an explicit fuel argument; `fuelOf` always supplies enough
fuel for any well-formed heap.
-/

namespace Errors

/-- A C++ byte string (std::string / std::string_view content). -/
abbrev Bytes := List Nat

/-- Literal byte string helper for ASCII literals appearing in the source. -/
def str (s : String) : Bytes := s.data.map Char.toNat

/-- The `Error` handle: `bits_ == 0` is Nil, odd bits reference a static
sentinel (`StaticSentinelError`), even non-zero bits own a dynamic node.
Node identity (pointer value) is modelled by the numeric id. -/
inductive Error where
  | nil : Error
  | sent (s : Nat) : Error
  | dyn (i : Nat) : Error
deriving DecidableEq, Repr

/-- The typed payload stored by `DetailedError<T>`, type-erased.  `tyId`
models `internal::type_id<T>`; `hasWire` models whether `T` satisfies the
`WireSerializable` concept, in which case `typeUrl` and `bytes` are the
results of `GetTypeName()` and `SerializeAsString()`; `hasDebug` models the
`HasDebugString` concept with result `debugStr`. -/
structure PayloadVal where
  tyId : Nat
  hasWire : Bool
  typeUrl : Bytes
  bytes : Bytes
  hasDebug : Bool
  debugStr : Bytes
deriving DecidableEq, Repr

/-- The concrete `ErrorImpl` variants: `DynamicError` (message + inner link),
`DetailedError<T>` (a `DynamicError` plus one typed payload), and
`StaticSentinelError` (message only, never owned). -/
inductive Impl where
  | dyn (msg : Bytes) (inner : Error)
  | det (msg : Bytes) (inner : Error) (payload : PayloadVal)
  | sentinelImpl (msg : Bytes)
deriving DecidableEq, Repr

/-- `ErrorImpl::message_view` (per-layer message, no chain traversal). -/
def Impl.message_view : Impl → Bytes
  | .dyn m _ => m
  | .det m _ _ => m
  | .sentinelImpl m => m

/-- The inner handle stored in a `DynamicError` (`inner_`); sentinels have
none. -/
def Impl.innerE : Impl → Error
  | .dyn _ i => i
  | .det _ i _ => i
  | .sentinelImpl _ => .nil

/-- `ErrorImpl::unwrap`: `inner_ ? &inner_ : nullptr` for dynamic errors,
`nullptr` (the base default) for sentinels. -/
def Impl.unwrapI (impl : Impl) : Option Error :=
  if impl.innerE = .nil then none else some impl.innerE

/-- `ErrorImpl::is_serializable`: true for `DynamicError`, the
`WireSerializable<T>` test for `DetailedError<T>`, false (base default) for
sentinels. -/
def Impl.is_serializable : Impl → Bool
  | .dyn _ _ => true
  | .det _ _ p => p.hasWire
  | .sentinelImpl _ => false

/-- `ErrorImpl::serialize_payload`: `SerializeAsString()` when the payload is
wire-serializable, empty otherwise (base default). -/
def Impl.serialize_payload : Impl → Bytes
  | .det _ _ p => if p.hasWire then p.bytes else []
  | _ => []

/-- `ErrorImpl::payload_type_url`: `GetTypeName()` when the payload is
wire-serializable, empty otherwise (base default). -/
def Impl.payload_type_url : Impl → Bytes
  | .det _ _ p => if p.hasWire then p.typeUrl else []
  | _ => []

/-- The "(N bytes)" fallback debug text built by `DetailedError`. -/
def parenBytes (n : Nat) : Bytes := str ("(" ++ toString n ++ " bytes)")

/-- `ErrorImpl::payload_debug_string`: `ShortDebugString()` when available,
else the byte-count placeholder for wire-serializable payloads, else empty. -/
def Impl.payload_debug_string : Impl → Bytes
  | .det _ _ p =>
      if p.hasDebug then p.debugStr
      else if p.hasWire then parenBytes p.bytes.length else []
  | _ => []

/-- `ErrorImpl::matches`: the extensible identity-matching hook for `Is`.
The base default returns false and no implementation in the repository
overrides it. -/
def Impl.matches (_impl : Impl) (_target : Error) : Bool := false

/-- `ErrorImpl::get_payload(TypeId)`: `DetailedError<T>` answers for its own
type id only; the base default returns null. -/
def Impl.get_payload (impl : Impl) (τ : Nat) : Option PayloadVal :=
  match impl with
  | .det _ _ p => if p.tyId = τ then some p else none
  | _ => none

/-- Replace the inner handle of a dynamic layer (the effect of
copy-on-write rewriting `inner_`'s bits in place). -/
def Impl.withInner : Impl → Error → Impl
  | .dyn m _, e => .dyn m e
  | .det m _ p, e => .det m e p
  | .sentinelImpl m, _ => .sentinelImpl m

/-- Replace the payload of a `DetailedError` (assignment through the `T*`
returned by `As<T>`). -/
def Impl.withPayload : Impl → PayloadVal → Impl
  | .det m i _, p => .det m i p
  | impl, _ => impl

/-- A heap node: an `ErrorImpl` object together with its intrusive atomic
reference count. -/
structure Node where
  impl : Impl
  refc : Nat
deriving DecidableEq, Repr

/-- The allocation state: `next` is the next fresh id, `nodes` the live
dynamic nodes, `sents` the statically allocated sentinel messages. -/
structure Heap where
  next : Nat
  nodes : List (Nat × Node)
  sents : List (Nat × Bytes)
deriving DecidableEq, Repr

/-- The empty process state: no dynamic nodes, no sentinels. -/
def emptyHeap : Heap := ⟨0, [], []⟩

/-- The impl stored at a dynamic node id, if the node is live. -/
def implAt (h : Heap) (i : Nat) : Option Impl := (h.nodes.lookup i).map (·.impl)

/-- The reference count of the node at a dynamic id (0 if absent). -/
def refcAt (h : Heap) (i : Nat) : Nat := ((h.nodes.lookup i).map (·.refc)).getD 0

/-- `Error::get_impl`: the `ErrorImpl*` behind a handle (null for Nil). -/
def implOf (h : Heap) : Error → Option Impl
  | .nil => none
  | .sent s => (h.sents.lookup s).map .sentinelImpl
  | .dyn i => implAt h i

/-- `Error::unwrap`: `impl ? impl->unwrap() : nullptr`. -/
def unwrapE (h : Heap) (e : Error) : Option Error := (implOf h e).bind Impl.unwrapI

/-- Fuel that suffices to walk any chain in a well-formed heap. -/
def fuelOf (h : Heap) : Nat := h.next + 2

/-- The sequence of `ErrorImpl`s visited by the chain-walking loop
`for (current = &err; current; current = current->unwrap())`, with the
source's `if (impl == nullptr) break` guard. -/
def chainF (h : Heap) : Nat → Error → List Impl
  | 0, _ => []
  | f + 1, e =>
    match implOf h e with
    | none => []
    | some impl =>
      impl :: (match impl.unwrapI with
               | none => []
               | some e' => chainF h f e')

/-- The `": "` separator used between layers of the full message. -/
def sepColon : Bytes := str ": "

/-- The message-building fold common to `Error::message` and `DebugString`:
append each piece, preceded by `": "` only when the accumulated result is
non-empty (`if (!result.empty()) result += ": ";`). -/
def srcJoin (pieces : List Bytes) : Bytes :=
  pieces.foldl (fun acc p => if acc = [] then p else acc ++ sepColon ++ p) []

/-- `Error::message`: `"(nil)"` for Nil, otherwise the layer messages joined
outermost-first. -/
def message (h : Heap) (e : Error) : Bytes :=
  if e = .nil then str "(nil)"
  else srcJoin ((chainF h (fuelOf h) e).map Impl.message_view)

/-- `Error::what`: this layer's message only; empty for Nil. -/
def what (h : Heap) (e : Error) : Bytes :=
  match implOf h e with
  | some impl => impl.message_view
  | none => []

/-- The loop body of `Is`: handle equality (`bits_` comparison) first, then
the layer's `matches` hook, then continue at `unwrap()`. -/
def isF (h : Heap) (t : Error) : Nat → Error → Bool
  | 0, _ => false
  | f + 1, e =>
    (e == t) ||
    (match implOf h e with
     | some impl => impl.matches t
     | none => false) ||
    (match unwrapE h e with
     | some e' => isF h t f e'
     | none => false)

/-- `Is(err, target)`. -/
def Is (h : Heap) (e t : Error) : Bool := isF h t (fuelOf h) e

/-- The handles visited by the `Is` loop (`&err`, then each `unwrap()`
result), outermost first. -/
def visitedF (h : Heap) : Nat → Error → List Error
  | 0, _ => []
  | f + 1, e =>
    e :: (match unwrapE h e with
          | none => []
          | some e' => visitedF h f e')

/-- The handles of the chain starting at `e`. -/
def visited (h : Heap) (e : Error) : List Error := visitedF h (fuelOf h) e

/-- The `matches` hook of the layer behind a handle (false when no impl). -/
def matchesAt (h : Heap) (c t : Error) : Bool :=
  match implOf h c with
  | some impl => impl.matches t
  | none => false

/-- The loop of `IsSerializable`: false as soon as a layer has a null impl
or is not serializable. -/
def isSerializableF (h : Heap) : Nat → Error → Bool
  | 0, _ => true
  | f + 1, e =>
    match implOf h e with
    | none => false
    | some impl =>
      impl.is_serializable &&
      (match impl.unwrapI with
       | none => true
       | some e' => isSerializableF h f e')

/-- `IsSerializable(err)`: true for Nil, otherwise every layer must be
serializable. -/
def IsSerializable (h : Heap) (e : Error) : Bool :=
  if e = .nil then true else isSerializableF h (fuelOf h) e

/-- The bracketed per-layer piece appended by `DebugString`:
`msg [type_url: debug]`, with the bracket omitted when the debug string is
empty and the `type_url: ` part omitted when the type url is empty. -/
def debugPiece (impl : Impl) : Bytes :=
  impl.message_view ++
  (let dbg := impl.payload_debug_string
   if dbg = [] then []
   else str " [" ++
        (let url := impl.payload_type_url
         if url = [] then [] else url ++ str ": ") ++
        dbg ++ str "]")

/-- `DebugString(err)`: `"(nil)"` for Nil, else the joined layer pieces. -/
def DebugString (h : Heap) (e : Error) : Bytes :=
  if e = .nil then str "(nil)"
  else srcJoin ((chainF h (fuelOf h) e).map debugPiece)

/-- Native-order (little-endian) 4-byte encoding of a `uint32_t` written by
`std::memcpy(buf, &val, 4)`. -/
def u32enc (v : Nat) : Bytes :=
  [v % 256, v / 256 % 256, v / 65536 % 256, v / 16777216 % 256]

/-- A length-prefixed field as written by `write_bytes` (the size is cast to
`uint32_t`). -/
def lp (s : Bytes) : Bytes := u32enc s.length ++ s

/-- The per-layer record decoded by `Deserialize` (struct `Layer`), also
used as the view of what `Serialize` writes for a layer. -/
structure Layer where
  msg : Bytes
  type_url : Bytes
  payload : Bytes
deriving DecidableEq, Repr

/-- What `Serialize` writes for one layer: message, payload type url and
serialized payload, each length-prefixed. -/
def encLayer (L : Layer) : Bytes := lp L.msg ++ lp L.type_url ++ lp L.payload

/-- The serialized view of a layer's impl. -/
def viewOf (impl : Impl) : Layer :=
  ⟨impl.message_view, impl.payload_type_url, impl.serialize_payload⟩

/-- The serialized views of a handle's chain, outermost first. -/
def chainViews (h : Heap) (e : Error) : List Layer :=
  (chainF h (fuelOf h) e).map viewOf

/-- `Serialize(err)`: empty for Nil, else the layer count followed by every
layer's three length-prefixed fields, outer to inner. -/
def Serialize (h : Heap) (e : Error) : Bytes :=
  if e = .nil then []
  else
    let c := chainF h (fuelOf h) e
    u32enc c.length ++ (c.map viewOf).flatMap encLayer

/-- `read_u32`: fails (`valid = false`) when fewer than 4 bytes remain. -/
def readU32 : Bytes → Option (Nat × Bytes)
  | b0 :: b1 :: b2 :: b3 :: rest =>
      some (b0 + 256 * b1 + 65536 * b2 + 16777216 * b3, rest)
  | _ => none

/-- `read_str`: a length prefix followed by that many bytes; fails when the
declared length exceeds the remaining input. -/
def read_str (d : Bytes) : Option (Bytes × Bytes) :=
  match readU32 d with
  | none => none
  | some (len, rest) =>
      if len ≤ rest.length then some (rest.take len, rest.drop len) else none

/-- One iteration of the decode loop: three `read_str` calls; the layer is
kept only if all three succeed. -/
def readLayer (d : Bytes) : Option (Layer × Bytes) :=
  match read_str d with
  | none => none
  | some (m, d1) =>
    match read_str d1 with
    | none => none
    | some (u, d2) =>
      match read_str d2 with
      | none => none
      | some (p, d3) => some (⟨m, u, p⟩, d3)

/-- The decode loop `for (i = 0; i < count && valid; ++i)`: parsing stops at
the first failed layer and failed layers are not pushed. -/
def parseLayers : Nat → Bytes → List Layer
  | 0, _ => []
  | n + 1, d =>
    match readLayer d with
    | none => []
    | some (L, d') => L :: parseLayers n d'

/-- Allocate a fresh dynamic node (refcount 1) and return the owning
handle. -/
def alloc (h : Heap) (impl : Impl) : Heap × Error :=
  (⟨h.next + 1, (h.next, ⟨impl, 1⟩) :: h.nodes, h.sents⟩, .dyn h.next)

/-- `New(msg)`: a fresh `DynamicError` with no inner error. -/
def New (h : Heap) (msg : Bytes) : Heap × Error := alloc h (.dyn msg .nil)

/-- `Wrap(inner, msg)` with the inner handle moved into the new node. -/
def Wrap (h : Heap) (inner : Error) (msg : Bytes) : Heap × Error :=
  alloc h (.dyn msg inner)

/-- `WrapWithPayload(inner, msg, payload)` (and `NewWithPayload` when the
inner handle is nil): a fresh `DetailedError`. -/
def WrapWithPayload (h : Heap) (inner : Error) (msg : Bytes) (p : PayloadVal) :
    Heap × Error :=
  alloc h (.det msg inner p)

/-- `internal::type_id<SerializedPayload>()`: the fixed token of the payload
type produced by `Deserialize`. -/
def spTyId : Nat := 0

/-- The `SerializedPayload` value `Deserialize` attaches to a layer carrying
a non-empty type url: `SerializeAsString()` returns `data`, `GetTypeName()`
returns `type_url`, `ShortDebugString()` the byte-count text. -/
def serializedPayloadVal (url data : Bytes) : PayloadVal :=
  ⟨spTyId, true, url, data, true, parenBytes data.length⟩

/-- The chain-rebuilding loop of `Deserialize`: innermost layer first; a
layer with a non-empty type url becomes a `DetailedError<SerializedPayload>`,
otherwise a plain `DynamicError`. -/
def buildChain (h : Heap) : List Layer → Heap × Error
  | [] => (h, .nil)
  | L :: rest =>
    let r := buildChain h rest
    if L.type_url = [] then Wrap r.1 r.2 L.msg
    else WrapWithPayload r.1 r.2 L.msg (serializedPayloadVal L.type_url L.payload)

/-- `Deserialize(data)`. -/
def Deserialize (h : Heap) (d : Bytes) : Heap × Error :=
  if d = [] then (h, .nil)
  else if d.length < 4 then (h, .nil)
  else
    match readU32 d with
    | none => (h, .nil)
    | some (count, rest) =>
      if count = 0 then (h, .nil)
      else
        let layers := parseLayers count rest
        if layers = [] then (h, .nil)
        else buildChain h layers

/-- The argument of `layers.reserve`: the declared count capped by
`remaining_bytes / 12` (each layer needs at least three 4-byte length
prefixes). -/
def deserializeReserve (d : Bytes) : Nat :=
  match readU32 d with
  | none => 0
  | some (count, rest) => min count (rest.length / 12)

/-- Map the node stored at one id (other entries unchanged). -/
def setNode (l : List (Nat × Node)) (i : Nat) (f : Node → Node) :
    List (Nat × Node) :=
  l.map fun p => if p.1 = i then (p.1, f p.2) else p

/-- The heap effect of `Error`'s copy constructor: a dynamic handle bumps
its node's reference count; sentinel and nil copies touch nothing. -/
def copyError (h : Heap) : Error → Heap
  | .dyn i => { h with nodes := setNode h.nodes i fun n => ⟨n.impl, n.refc + 1⟩ }
  | _ => h

/-- Rewrite the inner handle stored in the node at `i` (the in-place update
of `inner_`'s bits during a copy-on-write walk). -/
def setInnerAt (h : Heap) (i : Nat) (e : Error) : Heap :=
  { h with nodes := setNode h.nodes i fun n => ⟨n.impl.withInner e, n.refc⟩ }

/-- Overwrite the payload of the `DetailedError` at `i` (assignment through
the `T*` returned by mutable `As<T>`). -/
def setPayloadAt (h : Heap) (i : Nat) (p : PayloadVal) : Heap :=
  { h with nodes := setNode h.nodes i fun n => ⟨n.impl.withPayload p, n.refc⟩ }

/-- The walk of const `As<T>`: first layer whose `get_payload` answers for
the type id, chasing `unwrap()`. -/
def asConstF (h : Heap) (τ : Nat) : Nat → Error → Option PayloadVal
  | 0, _ => none
  | f + 1, e =>
    match implOf h e with
    | none => none
    | some impl =>
      match impl.get_payload τ with
      | some p => some p
      | none =>
        match impl.unwrapI with
        | none => none
        | some e' => asConstF h τ f e'

/-- `As<T>(const Error&)`: the payload value currently visible through the
handle, if any. -/
def asConst (h : Heap) (τ : Nat) (e : Error) : Option PayloadVal :=
  asConstF h τ (fuelOf h) e

/-- The heap after the copy-on-write branch of `Error::get_mutable_impl`
clones the node at `i`: `impl->clone()` allocates a fresh node with the same
impl and count 1 (the clone's copy of `inner_` bumps the inner node's
count), and `impl->release()` drops the old node's count by one. -/
def cowHeap (h : Heap) (i : Nat) (n : Node) : Heap :=
  ⟨h.next + 1,
   (h.next, ⟨n.impl, 1⟩) ::
     setNode (copyError h n.impl.innerE).nodes i (fun m => ⟨m.impl, m.refc - 1⟩),
   h.sents⟩

/-- `Error::get_mutable_impl`: null for non-dynamic handles; when the node
is shared (`use_count() > 1`) clone the outermost layer, release the old
reference and point the handle at the clone.  Returns the updated heap, the
updated handle and the id of the node whose impl the caller may mutate. -/
def getMutableImpl (h : Heap) (e : Error) : Heap × Error × Option Nat :=
  match e with
  | .dyn i =>
    match h.nodes.lookup i with
    | none => (h, e, none)
    | some n =>
      if 1 < n.refc then (cowHeap h i n, .dyn h.next, some h.next)
      else (h, e, some i)
  | _ => (h, e, none)

/-- The walk of mutable `As<T>` after the const pre-check: at each layer run
`get_mutable_impl` (performing copy-on-write), stop at the first payload
match, otherwise continue into the (possibly cloned) node's inner handle,
whose bits are rewritten in place when the deeper walk clones it. -/
def asMutGo (τ : Nat) : Nat → Heap → Error → Heap × Error × Option Nat
  | 0, h, e => (h, e, none)
  | f + 1, h, e =>
    match getMutableImpl h e with
    | (h1, e1, none) => (h1, e1, none)
    | (h1, e1, some nid) =>
      match implAt h1 nid with
      | none => (h1, e1, none)
      | some impl =>
        match impl.get_payload τ with
        | some _ => (h1, e1, some nid)
        | none =>
          match impl.unwrapI with
          | none => (h1, e1, none)
          | some e' =>
            let r := asMutGo τ f h1 e'
            (setInnerAt r.1 nid r.2.1, e1, r.2.2)

/-- `As<T>(Error&)`: the const search runs first to avoid needless cloning
when the payload is absent; only on success does the copy-on-write walk
run.  Returns the updated heap, the updated handle and the id of the node
holding the returned `T*`. -/
def asMut (τ : Nat) (h : Heap) (e : Error) : Heap × Error × Option Nat :=
  match asConst h τ e with
  | none => (h, e, none)
  | some _ => asMutGo τ (fuelOf h) h e

/-- A handle's references are valid below a bound: dynamic ids are smaller
than the bound and live, sentinel ids are registered. -/
def ErefBound (h : Heap) (b : Nat) : Error → Prop
  | .nil => True
  | .sent s => (h.sents.lookup s).isSome = true
  | .dyn j => j < b ∧ (implAt h j).isSome = true

instance (h : Heap) (b : Nat) : ∀ e, Decidable (ErefBound h b e)
  | .nil => inferInstanceAs (Decidable True)
  | .sent _ => inferInstanceAs (Decidable (_ = true))
  | .dyn _ => inferInstanceAs (Decidable (_ ∧ _))

/-- A root handle is valid in a heap. -/
def ERefOK (h : Heap) (e : Error) : Prop := ErefBound h h.next e

instance (h : Heap) (e : Error) : Decidable (ERefOK h e) :=
  inferInstanceAs (Decidable (ErefBound h h.next e))

/-- Heap well-formedness: node keys are unique and below `next`, live nodes
are actually referenced (`refc ≥ 1`), and every node's inner link points
strictly earlier (a node can only link to a node allocated before it). -/
def Heap.WF (h : Heap) : Prop :=
  (h.nodes.map Prod.fst).Nodup ∧
  ∀ p ∈ h.nodes, p.1 < h.next ∧ 1 ≤ p.2.refc ∧ ErefBound h p.1 p.2.impl.innerE

instance (h : Heap) : Decidable h.WF :=
  inferInstanceAs (Decidable (_ ∧ ∀ _ ∈ _, _))

/-- The decoded view of an encoded layer: a layer whose type url is empty is
rebuilt as a plain `DynamicError`, so its payload bytes are dropped. -/
def degrade (L : Layer) : Layer :=
  if L.type_url = [] then ⟨L.msg, [], []⟩ else L

/-- `Result<T>`: a discriminated union of a success value or an error. -/
inductive ResultV (T : Type) where
  | success (v : T)
  | failure (e : Error)
deriving DecidableEq

/-- Success construction `Result(T val)`. -/
def ResultV.ofValue {T : Type} (v : T) : ResultV T := .success v

/-- Failure construction `Result(Error err)`: `assert(err && ...)` makes a
nil error in the failure slot unrepresentable, modelled by `none`. -/
def ResultV.mkFailure {T : Type} (e : Error) : Option (ResultV T) :=
  if e = .nil then none else some (.failure e)

/-- `Result<T>::ok()`. -/
def ResultV.ok {T : Type} : ResultV T → Bool
  | .success _ => true
  | .failure _ => false

/-- `Result<T>::value()` / `operator*`: asserted precondition `ok()`;
calling it in the failure state is a contract violation, modelled by
`none`. -/
def ResultV.value? {T : Type} : ResultV T → Option T
  | .success v => some v
  | .failure _ => none

/-- `Result<T>::error()`: asserted precondition `!ok()`; calling it in the
success state is a contract violation, modelled by `none`. -/
def ResultV.error? {T : Type} : ResultV T → Option Error
  | .failure e => some e
  | .success _ => none

end Errors

namespace Errors

/-! ### Association-list helpers -/

theorem lookup_cons_eq_if {β : Type _} (k a : Nat) (v : β) (l : List (Nat × β)) :
    List.lookup k ((a, v) :: l) = if k = a then some v else List.lookup k l := by
  rw [List.lookup]
  by_cases h : k = a
  · simp [h]
  · have hb : (k == a) = false := beq_eq_false_iff_ne.mpr h
    simp [hb, h]

theorem mem_of_lookup {β : Type _} {l : List (Nat × β)} {k : Nat} {v : β}
    (hl : l.lookup k = some v) : (k, v) ∈ l := by
  induction l with
  | nil => simp [List.lookup] at hl
  | cons p t ih =>
    obtain ⟨a, b⟩ := p
    rw [lookup_cons_eq_if] at hl
    by_cases h : k = a
    · rw [if_pos h] at hl
      cases hl
      exact h ▸ List.mem_cons_self _ _
    · rw [if_neg h] at hl
      exact List.mem_cons_of_mem _ (ih hl)

theorem setNode_cons (a : Nat) (b : Node) (i : Nat) (t : List (Nat × Node))
    (f : Node → Node) :
    setNode ((a, b) :: t) i f =
      (if a = i then (a, f b) else (a, b)) :: setNode t i f := by
  by_cases h : a = i <;> simp [setNode, List.map_cons, h]

theorem lookup_setNode (l : List (Nat × Node)) (i j : Nat) (f : Node → Node) :
    List.lookup j (setNode l i f) =
      if j = i then (List.lookup j l).map f else List.lookup j l := by
  induction l with
  | nil => simp [setNode, List.lookup]
  | cons p t ih =>
    obtain ⟨a, b⟩ := p
    rw [setNode_cons]
    by_cases hai : a = i
    · subst hai
      rw [if_pos rfl, lookup_cons_eq_if, lookup_cons_eq_if]
      by_cases hj : j = a
      · simp [hj]
      · simp [hj, ih]
    · rw [if_neg hai, lookup_cons_eq_if, lookup_cons_eq_if]
      by_cases hj : j = a
      · have hji : j ≠ i := fun hji => hai (by rw [← hj, hji])
        simp [hj, hji, hai]
      · simp [hj, ih]

theorem setNode_map_fst (l : List (Nat × Node)) (i : Nat) (f : Node → Node) :
    (setNode l i f).map Prod.fst = l.map Prod.fst := by
  simp only [setNode, List.map_map]
  refine List.map_congr_left fun p _ => ?_
  by_cases h : p.1 = i <;> simp [h]

/-! ### `implAt` after each heap operation -/

theorem implAt_copyError (h : Heap) (e : Error) (j : Nat) :
    implAt (copyError h e) j = implAt h j := by
  cases e with
  | nil => rfl
  | sent s => rfl
  | dyn i =>
    simp only [copyError, implAt, lookup_setNode]
    by_cases hj : j = i
    · subst hj
      cases h.nodes.lookup j <;> simp
    · simp [hj]

theorem sents_copyError (h : Heap) (e : Error) : (copyError h e).sents = h.sents := by
  cases e <;> rfl

theorem next_copyError (h : Heap) (e : Error) : (copyError h e).next = h.next := by
  cases e <;> rfl

theorem implAt_setInnerAt_ne (h : Heap) (i j : Nat) (e : Error) (hj : j ≠ i) :
    implAt (setInnerAt h i e) j = implAt h j := by
  simp [setInnerAt, implAt, lookup_setNode, hj]

theorem implAt_setInnerAt_self (h : Heap) (i : Nat) (e : Error) :
    implAt (setInnerAt h i e) i = (implAt h i).map (·.withInner e) := by
  simp only [setInnerAt, implAt, lookup_setNode, if_pos rfl]
  cases h.nodes.lookup i <;> simp

theorem implAt_setPayloadAt_ne (h : Heap) (i j : Nat) (p : PayloadVal) (hj : j ≠ i) :
    implAt (setPayloadAt h i p) j = implAt h j := by
  simp [setPayloadAt, implAt, lookup_setNode, hj]

theorem implAt_setPayloadAt_self (h : Heap) (i : Nat) (p : PayloadVal) :
    implAt (setPayloadAt h i p) i = (implAt h i).map (·.withPayload p) := by
  simp only [setPayloadAt, implAt, lookup_setNode, if_pos rfl]
  cases h.nodes.lookup i <;> simp

theorem implAt_alloc_lt (h : Heap) (impl : Impl) (j : Nat) (hj : j ≠ h.next) :
    implAt (alloc h impl).1 j = implAt h j := by
  simp [alloc, implAt, lookup_cons_eq_if, hj]

theorem implAt_alloc_self (h : Heap) (impl : Impl) :
    implAt (alloc h impl).1 h.next = some impl := by
  simp [alloc, implAt, lookup_cons_eq_if]

end Errors

namespace Errors

/-! ### Reference validity and well-formedness -/

theorem erefBound_mono {h : Heap} {b b' : Nat} {e : Error} (hb : b ≤ b')
    (he : ErefBound h b e) : ErefBound h b' e := by
  cases e with
  | nil => trivial
  | sent s => exact he
  | dyn j => exact ⟨Nat.lt_of_lt_of_le he.1 hb, he.2⟩

theorem erefBound_congr (h h' : Heap) {b : Nat} {e : Error}
    (hs : h'.sents = h.sents)
    (hi : ∀ j, j < b → (implAt h' j).isSome = (implAt h j).isSome)
    (he : ErefBound h b e) : ErefBound h' b e := by
  cases e with
  | nil => trivial
  | sent s =>
    show (h'.sents.lookup s).isSome = true
    rw [hs]
    exact he
  | dyn j => exact ⟨he.1, (hi j he.1).trans he.2⟩

theorem implAt_some {h : Heap} {i : Nat} {impl : Impl}
    (hl : implAt h i = some impl) :
    ∃ n, h.nodes.lookup i = some n ∧ n.impl = impl := by
  unfold implAt at hl
  cases hln : h.nodes.lookup i with
  | none => rw [hln] at hl; cases hl
  | some n =>
    rw [hln] at hl
    cases hl
    exact ⟨n, rfl, rfl⟩

theorem WF_node {h : Heap} (hWF : h.WF) {i : Nat} {n : Node}
    (hl : h.nodes.lookup i = some n) :
    i < h.next ∧ 1 ≤ n.refc ∧ ErefBound h i n.impl.innerE :=
  hWF.2 _ (mem_of_lookup hl)

theorem WF_implAt {h : Heap} (hWF : h.WF) {i : Nat} {impl : Impl}
    (hl : implAt h i = some impl) :
    i < h.next ∧ ErefBound h i impl.innerE := by
  obtain ⟨n, hln, hni⟩ := implAt_some hl
  obtain ⟨h1, _, h3⟩ := WF_node hWF hln
  exact ⟨h1, hni ▸ h3⟩

theorem unwrapI_some {impl : Impl} {e : Error} (h : impl.unwrapI = some e) :
    impl.innerE = e ∧ e ≠ .nil := by
  unfold Impl.unwrapI at h
  split at h
  · cases h
  · next hne =>
    cases h
    exact ⟨rfl, hne⟩

theorem erefOK_inner {h : Heap} (hWF : h.WF) {i : Nat} {impl : Impl}
    (hl : implAt h i = some impl) {e' : Error} (hu : impl.unwrapI = some e') :
    ERefOK h e' := by
  obtain ⟨hlt, hb⟩ := WF_implAt hWF hl
  obtain ⟨hie, -⟩ := unwrapI_some hu
  exact erefBound_mono (Nat.le_of_lt hlt) (hie ▸ hb)

/-! ### Chain traversal -/

theorem chainF_zero (h : Heap) (e : Error) : chainF h 0 e = [] := rfl

theorem chainF_nilE (h : Heap) : ∀ f, chainF h f .nil = []
  | 0 => rfl
  | _ + 1 => rfl

theorem chainF_succ (h : Heap) (f : Nat) (e : Error) :
    chainF h (f + 1) e =
      match implOf h e with
      | none => []
      | some impl =>
        impl :: (match impl.unwrapI with
                 | none => []
                 | some e' => chainF h f e') := rfl

theorem implOf_dyn (h : Heap) (i : Nat) : implOf h (.dyn i) = implAt h i := rfl

theorem implOf_sent (h : Heap) (s : Nat) :
    implOf h (.sent s) = (h.sents.lookup s).map .sentinelImpl := rfl

theorem implOf_sent_unwrapI {h : Heap} {s : Nat} {impl : Impl}
    (hl : implOf h (.sent s) = some impl) : impl.unwrapI = none := by
  rw [implOf_sent] at hl
  cases hlk : h.sents.lookup s with
  | none => rw [hlk] at hl; cases hl
  | some m =>
    rw [hlk] at hl
    cases hl
    rfl

theorem chainF_ext (h h' : Heap) (hs : h'.sents = h.sents) (hWF : h.WF)
    (hi : ∀ j, j < h.next → implAt h' j = implAt h j) :
    ∀ f e, ERefOK h e → chainF h' f e = chainF h f e := by
  intro f
  induction f with
  | zero => intro e _; rfl
  | succ f ih =>
    intro e he
    cases e with
    | nil => rfl
    | sent s =>
      rw [chainF_succ, chainF_succ, implOf_sent, implOf_sent, hs]
      cases hlk : h.sents.lookup s with
      | none => rfl
      | some m => rfl
    | dyn i =>
      obtain ⟨hlt, -⟩ := he
      rw [chainF_succ, chainF_succ, implOf_dyn, implOf_dyn, hi i hlt]
      cases himpl : implAt h i with
      | none => rfl
      | some impl =>
        simp only
        cases hu : impl.unwrapI with
        | none => rfl
        | some e' =>
          simp only
          rw [ih e' (erefOK_inner hWF himpl hu)]

/-! ### The message-building fold -/

theorem srcJoin_go (vs : List Bytes) :
    ∀ acc : Bytes, acc ≠ [] →
      vs.foldl (fun a p => if a = [] then p else a ++ sepColon ++ p) acc =
        acc ++ vs.flatMap (fun v => sepColon ++ v) := by
  induction vs with
  | nil => intro acc _; simp
  | cons v t ih =>
    intro acc hacc
    rw [List.foldl_cons, if_neg hacc,
        ih _ (by
          intro hcon
          obtain ⟨hcon, -⟩ := List.append_eq_nil.mp hcon
          exact hacc (List.append_eq_nil.mp hcon).1)]
    simp [List.append_assoc]

theorem srcJoin_cons {m : Bytes} (vs : List Bytes) (hm : m ≠ []) :
    srcJoin (m :: vs) = m ++ vs.flatMap (fun v => sepColon ++ v) := by
  unfold srcJoin
  rw [List.foldl_cons, if_pos rfl]
  exact srcJoin_go vs m hm

end Errors

namespace Errors

/-! ### Wire-format encoding and decoding -/

theorem readU32_enc (v : Nat) (rest : Bytes) (hv : v < 4294967296) :
    readU32 (u32enc v ++ rest) = some (v, rest) := by
  have harith :
      v % 256 + 256 * (v / 256 % 256) + 65536 * (v / 65536 % 256) +
        16777216 * (v / 16777216 % 256) = v := by omega
  simp [u32enc, readU32, List.cons_append, List.nil_append, harith]

theorem read_str_lp (s : Bytes) (rest : Bytes) (hs : s.length < 4294967296) :
    read_str (lp s ++ rest) = some (s, rest) := by
  unfold lp read_str
  rw [List.append_assoc, readU32_enc _ _ hs]
  simp only
  rw [if_pos (by rw [List.length_append]; exact Nat.le_add_right _ _)]
  rw [List.take_left, List.drop_left]

theorem readLayer_enc (L : Layer) (rest : Bytes)
    (h1 : L.msg.length < 4294967296) (h2 : L.type_url.length < 4294967296)
    (h3 : L.payload.length < 4294967296) :
    readLayer (encLayer L ++ rest) = some (L, rest) := by
  unfold encLayer readLayer
  rw [List.append_assoc, List.append_assoc, read_str_lp _ _ h1]
  simp only
  rw [read_str_lp _ _ h2]
  simp only
  rw [read_str_lp _ _ h3]

theorem parseLayers_enc (Ls : List Layer)
    (hb : ∀ L ∈ Ls, L.msg.length < 4294967296 ∧
          L.type_url.length < 4294967296 ∧ L.payload.length < 4294967296) :
    parseLayers Ls.length (Ls.flatMap encLayer) = Ls := by
  induction Ls with
  | nil => rfl
  | cons L rest ih =>
    obtain ⟨h1, h2, h3⟩ := hb L (List.mem_cons_self _ _)
    rw [List.length_cons, List.flatMap_cons]
    unfold parseLayers
    rw [readLayer_enc L _ h1 h2 h3]
    simp only
    rw [ih fun L' hL' => hb L' (List.mem_cons_of_mem _ hL')]

theorem readU32_length {d : Bytes} {v : Nat} {rest : Bytes}
    (h : readU32 d = some (v, rest)) : rest.length + 4 = d.length := by
  match d with
  | [] => cases h
  | [_] => cases h
  | [_, _] => cases h
  | [_, _, _] => cases h
  | b0 :: b1 :: b2 :: b3 :: r =>
    cases h
    simp [List.length_cons]

theorem read_str_length {d : Bytes} {s : Bytes} {rest : Bytes}
    (h : read_str d = some (s, rest)) : rest.length + 4 ≤ d.length := by
  unfold read_str at h
  cases hu : readU32 d with
  | none => rw [hu] at h; cases h
  | some pr =>
    obtain ⟨len, r⟩ := pr
    rw [hu] at h
    simp only at h
    split at h
    · cases h
      have := readU32_length hu
      have : (r.drop len).length ≤ r.length := by
        rw [List.length_drop]
        omega
      omega
    · cases h

theorem readLayer_length {d : Bytes} {L : Layer} {rest : Bytes}
    (h : readLayer d = some (L, rest)) : rest.length + 12 ≤ d.length := by
  unfold readLayer at h
  cases h1 : read_str d with
  | none => rw [h1] at h; cases h
  | some pr1 =>
    obtain ⟨m, d1⟩ := pr1
    rw [h1] at h
    simp only at h
    cases h2 : read_str d1 with
    | none => rw [h2] at h; cases h
    | some pr2 =>
      obtain ⟨u, d2⟩ := pr2
      rw [h2] at h
      simp only at h
      cases h3 : read_str d2 with
      | none => rw [h3] at h; cases h
      | some pr3 =>
        obtain ⟨p, d3⟩ := pr3
        rw [h3] at h
        cases h
        have := read_str_length h1
        have := read_str_length h2
        have := read_str_length h3
        omega

theorem parseLayers_length_le (n : Nat) (d : Bytes) :
    (parseLayers n d).length ≤ d.length / 12 := by
  induction n generalizing d with
  | zero => simp [parseLayers]
  | succ n ih =>
    unfold parseLayers
    cases hr : readLayer d with
    | none => simp
    | some pr =>
      obtain ⟨L, d'⟩ := pr
      simp only [List.length_cons]
      have hlen := readLayer_length hr
      have := ih d'
      omega

end Errors

namespace Errors

/-! ### Allocation -/

theorem WF_alloc {h : Heap} (hWF : h.WF) {impl : Impl}
    (hinner : ErefBound h h.next impl.innerE) : (alloc h impl).1.WF := by
  have hpres : ∀ j b, j < b → b ≤ h.next →
      (implAt (alloc h impl).1 j).isSome = (implAt h j).isSome := by
    intro j b hj hb
    rw [implAt_alloc_lt h impl j (by omega)]
  constructor
  · simp only [alloc, List.map_cons]
    refine List.Nodup.cons ?_ hWF.1
    intro hmem
    obtain ⟨p, hp, hfst⟩ := List.mem_map.mp hmem
    have := (hWF.2 p hp).1
    omega
  · intro p hp
    rcases List.mem_cons.mp hp with rfl | hp'
    · exact ⟨Nat.lt_succ_self _, Nat.le_refl 1,
        erefBound_congr h (alloc h impl).1 rfl
          (fun j hj => hpres j h.next hj (Nat.le_refl _)) hinner⟩
    · obtain ⟨h1, h2, h3⟩ := hWF.2 p hp'
      exact ⟨Nat.lt_succ_of_lt h1, h2,
        erefBound_congr h (alloc h impl).1 rfl
          (fun j hj => hpres j p.1 hj (Nat.le_of_lt h1)) h3⟩

/-! ### The chain rebuilt by `Deserialize` -/

theorem buildChain_spec (Ls : List Layer) : ∀ g : Heap, g.WF →
    (buildChain g Ls).1.WF ∧
    (buildChain g Ls).1.sents = g.sents ∧
    g.next ≤ (buildChain g Ls).1.next ∧
    (∀ j, j < g.next → implAt (buildChain g Ls).1 j = implAt g j) ∧
    ERefOK (buildChain g Ls).1 (buildChain g Ls).2 ∧
    (Ls ≠ [] → (buildChain g Ls).2 ≠ .nil) ∧
    (chainF (buildChain g Ls).1 (fuelOf (buildChain g Ls).1) (buildChain g Ls).2).map viewOf
      = Ls.map degrade := by
  induction Ls with
  | nil =>
    intro g hWF
    refine ⟨hWF, rfl, Nat.le_refl _, fun j _ => rfl, trivial,
      fun hcon => absurd rfl hcon, ?_⟩
    show (chainF g (fuelOf g) Error.nil).map viewOf = _
    rw [chainF_nilE]
    rfl
  | cons L rest ih =>
    intro g hWF
    obtain ⟨iWF, isents, inext, iimpl, iok, -, ichain⟩ := ih g hWF
    set r := buildChain g rest with hr
    have hstep : ∀ implL : Impl, implL.innerE = r.2 → viewOf implL = degrade L →
        (alloc r.1 implL).1.WF ∧
        (alloc r.1 implL).1.sents = g.sents ∧
        g.next ≤ (alloc r.1 implL).1.next ∧
        (∀ j, j < g.next → implAt (alloc r.1 implL).1 j = implAt g j) ∧
        ERefOK (alloc r.1 implL).1 (alloc r.1 implL).2 ∧
        (L :: rest ≠ [] → (alloc r.1 implL).2 ≠ .nil) ∧
        (chainF (alloc r.1 implL).1 (fuelOf (alloc r.1 implL).1)
            (alloc r.1 implL).2).map viewOf = (L :: rest).map degrade := by
      intro implL hinner hview
      have hWF' : (alloc r.1 implL).1.WF := WF_alloc iWF (hinner ▸ iok)
      refine ⟨hWF', isents ▸ rfl, ?_, ?_, ?_, ?_, ?_⟩
      · show g.next ≤ r.1.next + 1
        omega
      · intro j hj
        rw [implAt_alloc_lt r.1 implL j (by omega), iimpl j hj]
      · exact ⟨Nat.lt_succ_self _, by rw [implAt_alloc_self]; rfl⟩
      · intro _
        simp [alloc]
      · have hfuel : fuelOf (alloc r.1 implL).1 = fuelOf r.1 + 1 := rfl
        rw [hfuel, chainF_succ]
        show ((match implAt (alloc r.1 implL).1 r.1.next with
               | none => []
               | some impl =>
                 impl :: (match impl.unwrapI with
                          | none => []
                          | some e' => chainF (alloc r.1 implL).1 (fuelOf r.1) e')).map viewOf) = _
        rw [implAt_alloc_self]
        simp only
        cases hnil : r.2 with
        | nil =>
          have : implL.unwrapI = none := by
            unfold Impl.unwrapI
            rw [hinner, hnil, if_pos rfl]
          rw [this]
          have hrest : rest.map degrade = [] := by
            have hch := ichain
            rw [hnil, chainF_nilE] at hch
            exact hch.symm
          simp [hrest, hview]
        | sent s =>
          have hun : implL.unwrapI = some (.sent s) := by
            unfold Impl.unwrapI
            rw [hinner, hnil, if_neg (by intro hcon; cases hcon)]
          rw [hun]
          simp only [List.map_cons, hview]
          congr 1
          rw [chainF_ext r.1 (alloc r.1 implL).1 rfl iWF
              (fun j hj => implAt_alloc_lt r.1 implL j (by omega)) (fuelOf r.1) _
              (hnil ▸ iok)]
          rw [← hnil]
          exact ichain
        | dyn i =>
          have hun : implL.unwrapI = some (.dyn i) := by
            unfold Impl.unwrapI
            rw [hinner, hnil, if_neg (by intro hcon; cases hcon)]
          rw [hun]
          simp only [List.map_cons, hview]
          congr 1
          rw [chainF_ext r.1 (alloc r.1 implL).1 rfl iWF
              (fun j hj => implAt_alloc_lt r.1 implL j (by omega)) (fuelOf r.1) _
              (hnil ▸ iok)]
          rw [← hnil]
          exact ichain
    obtain ⟨lmsg, lurl, lpay⟩ := L
    by_cases hu : lurl = ([] : Bytes)
    · have hb : buildChain g (⟨lmsg, lurl, lpay⟩ :: rest) =
          alloc r.1 (.dyn lmsg r.2) := by
        show (if lurl = ([] : Bytes) then Wrap r.1 r.2 lmsg
              else WrapWithPayload r.1 r.2 lmsg (serializedPayloadVal lurl lpay)) = _
        rw [if_pos hu]
        rfl
      rw [hb]
      exact hstep (.dyn lmsg r.2) rfl (by
        simp [viewOf, degrade, hu, Impl.message_view, Impl.payload_type_url,
          Impl.serialize_payload])
    · have hb : buildChain g (⟨lmsg, lurl, lpay⟩ :: rest) =
          alloc r.1 (.det lmsg r.2 (serializedPayloadVal lurl lpay)) := by
        show (if lurl = ([] : Bytes) then Wrap r.1 r.2 lmsg
              else WrapWithPayload r.1 r.2 lmsg (serializedPayloadVal lurl lpay)) = _
        rw [if_neg hu]
        rfl
      rw [hb]
      exact hstep (.det lmsg r.2 (serializedPayloadVal lurl lpay)) rfl (by
        simp [viewOf, degrade, hu, Impl.message_view, Impl.payload_type_url,
          Impl.serialize_payload, serializedPayloadVal])

end Errors

namespace Errors

/-! ### Payload lookup -/

theorem asConstF_succ (h : Heap) (τ : Nat) (f : Nat) (e : Error) :
    asConstF h τ (f + 1) e =
      match implOf h e with
      | none => none
      | some impl =>
        match impl.get_payload τ with
        | some p => some p
        | none =>
          match impl.unwrapI with
          | none => none
          | some e' => asConstF h τ f e' := rfl

theorem asConstF_mono (h : Heap) (τ : Nat) :
    ∀ f g e p, asConstF h τ f e = some p → f ≤ g → asConstF h τ g e = some p := by
  intro f
  induction f with
  | zero => intro g e p hp _; cases hp
  | succ f ih =>
    intro g e p hp hg
    obtain ⟨g', rfl⟩ : ∃ g', g = g' + 1 := ⟨g - 1, by omega⟩
    rw [asConstF_succ] at hp ⊢
    cases himpl : implOf h e with
    | none => rw [himpl] at hp; simp at hp
    | some impl =>
      rw [himpl] at hp
      dsimp only at hp ⊢
      cases hpl : impl.get_payload τ with
      | some q => rw [hpl] at hp; exact hp
      | none =>
        rw [hpl] at hp
        dsimp only at hp ⊢
        cases hu : impl.unwrapI with
        | none => rw [hu] at hp; simp at hp
        | some e' =>
          rw [hu] at hp
          exact ih g' e' p hp (by omega)

theorem asConstF_ext (h h' : Heap) (τ : Nat) (hs : h'.sents = h.sents)
    (hWF : h.WF) (hi : ∀ j, j < h.next → implAt h' j = implAt h j) :
    ∀ f e, ERefOK h e → asConstF h' τ f e = asConstF h τ f e := by
  intro f
  induction f with
  | zero => intro e _; rfl
  | succ f ih =>
    intro e he
    rw [asConstF_succ, asConstF_succ]
    have himpl : implOf h' e = implOf h e := by
      cases e with
      | nil => rfl
      | sent s => rw [implOf_sent, implOf_sent, hs]
      | dyn i => rw [implOf_dyn, implOf_dyn, hi i he.1]
    rw [himpl]
    cases hio : implOf h e with
    | none => rfl
    | some impl =>
      simp only
      cases hpl : impl.get_payload τ with
      | some q => rfl
      | none =>
        simp only
        cases hu : impl.unwrapI with
        | none => rfl
        | some e' =>
          cases e with
          | nil => cases hio
          | sent s => rw [implOf_sent_unwrapI hio] at hu; cases hu
          | dyn i => exact ih e' (erefOK_inner hWF hio hu)

/-! ### The `Is` loop -/

theorem isF_eq_any (h : Heap) (t : Error) :
    ∀ f e, isF h t f e = (visitedF h f e).any fun c => c == t || matchesAt h c t := by
  intro f
  induction f with
  | zero => intro e; rfl
  | succ f ih =>
    intro e
    show ((e == t) || (matchesAt h e t) ||
          (match unwrapE h e with
           | some e' => isF h t f e'
           | none => false)) =
        ((e :: (match unwrapE h e with
                | none => []
                | some e' => visitedF h f e')).any fun c => c == t || matchesAt h c t)
    cases hu : unwrapE h e with
    | none => simp
    | some e' => simp [ih e']

/-! ### Serializability -/

theorem isSerializableF_false {h : Heap} {impl : Impl}
    (himpl : impl.is_serializable = false) :
    ∀ f e, impl ∈ chainF h f e → isSerializableF h f e = false := by
  intro f
  induction f with
  | zero => intro e hmem; cases hmem
  | succ f ih =>
    intro e hmem
    rw [chainF_succ] at hmem
    show (match implOf h e with
          | none => false
          | some i0 =>
            i0.is_serializable &&
            (match i0.unwrapI with
             | none => true
             | some e' => isSerializableF h f e')) = false
    cases hio : implOf h e with
    | none => rfl
    | some i0 =>
      rw [hio] at hmem
      simp only at hmem ⊢
      rcases List.mem_cons.mp hmem with rfl | htail
      · rw [himpl, Bool.false_and]
      · cases hu : i0.unwrapI with
        | none => rw [hu] at htail; cases htail
        | some e' =>
          rw [hu] at htail
          simp [ih e' htail]

end Errors

namespace Errors

/-! ### Decoding case analysis -/

theorem readU32_isSome (d : Bytes) (hd : 4 ≤ d.length) :
    ∃ c rest, readU32 d = some (c, rest) := by
  match d with
  | [] => simp at hd
  | [_] => simp at hd
  | [_, _] => simp at hd
  | [_, _, _] => simp at hd
  | _ :: _ :: _ :: _ :: _ => exact ⟨_, _, rfl⟩

theorem buildChain_root_ne_nil (g : Heap) (L : Layer) (rest : List Layer) :
    (buildChain g (L :: rest)).2 ≠ .nil := by
  show (if L.type_url = [] then Wrap (buildChain g rest).1 (buildChain g rest).2 L.msg
        else WrapWithPayload (buildChain g rest).1 (buildChain g rest).2 L.msg
          (serializedPayloadVal L.type_url L.payload)).2 ≠ .nil
  by_cases hu : L.type_url = ([] : Bytes) <;>
    simp [hu, Wrap, WrapWithPayload, alloc]

theorem deserialize_nil_iff (g : Heap) (d : Bytes) :
    (Deserialize g d).2 = .nil ↔
      d.length < 4 ∨ ∃ c rest, readU32 d = some (c, rest) ∧
        (c = 0 ∨ parseLayers c rest = []) := by
  unfold Deserialize
  by_cases hemp : d = []
  · subst hemp
    simp
  · rw [if_neg hemp]
    by_cases hlen : d.length < 4
    · rw [if_pos hlen]
      simp [hlen]
    · rw [if_neg hlen]
      obtain ⟨c, rest, hread⟩ := readU32_isSome d (by omega)
      rw [hread]
      dsimp only
      by_cases hc : c = 0
      · rw [if_pos hc]
        exact iff_of_true rfl (Or.inr ⟨c, rest, rfl, Or.inl hc⟩)
      · rw [if_neg hc]
        by_cases hpl : parseLayers c rest = []
        · rw [if_pos hpl]
          exact iff_of_true rfl (Or.inr ⟨c, rest, rfl, Or.inr hpl⟩)
        · rw [if_neg hpl]
          refine iff_of_false ?_ ?_
          · cases hL : parseLayers c rest with
            | nil => exact absurd hL hpl
            | cons L ls => exact buildChain_root_ne_nil g L ls
          · rintro (hcon | ⟨c', rest', hread', hor⟩)
            · exact hlen hcon
            · injection hread' with hpair
              obtain ⟨rfl, rfl⟩ := Prod.mk.inj hpair.symm
              rcases hor with h0 | hparse
              · exact hc h0
              · exact hpl hparse

theorem deserialize_result (g : Heap) (d : Bytes) {c : Nat} {rest : Bytes}
    (hread : readU32 d = some (c, rest)) (hlen : ¬d.length < 4) (hc : c ≠ 0)
    (hpl : parseLayers c rest ≠ []) :
    Deserialize g d = buildChain g (parseLayers c rest) := by
  unfold Deserialize
  rw [if_neg (fun hcon => hlen (by subst hcon; simp)), if_neg hlen, hread]
  dsimp only
  rw [if_neg hc, if_neg hpl]

end Errors

namespace Errors

/-- Claim C10: for a Nil handle, `message()` returns the literal string
"(nil)" rather than the empty string, `what()` returns the empty string, and
`DebugString` of a Nil handle likewise returns "(nil)". -/
theorem c10_nil_text (h : Heap) :
    message h .nil = str "(nil)" ∧ what h .nil = [] ∧
    DebugString h .nil = str "(nil)" := by
  refine ⟨?_, rfl, ?_⟩
  · unfold message
    rw [if_pos rfl]
  · unfold DebugString
    rw [if_pos rfl]

/-- Claim C4: `Is(chain, target)` is true if and only if some handle of the
chain, walked outermost to innermost, equals the target by node identity or
that layer's identity-matching hook (`ErrorImpl::matches`) accepts the
target; it is false once the chain is exhausted without a match. -/
theorem c4_is_iff (h : Heap) (e t : Error) :
    Is h e t = true ↔ ∃ c ∈ visited h e, c = t ∨ matchesAt h c t = true := by
  unfold Is visited
  rw [isF_eq_any]
  simp [List.any_eq_true, Bool.or_eq_true, beq_iff_eq]

/-- Claim C2 (amended): `Serialize` of a Nil handle yields empty bytes, and
`Deserialize` returns Nil exactly when the input is shorter than the 4-byte
header, the declared layer count is zero, or zero layers parse successfully
(in particular when the first layer's declared field length exceeds the
remaining bytes).  A field-length overrun in a later layer merely stops
parsing: the layers already parsed are returned as a non-nil chain. -/
theorem c2_serialize_nil_deserialize_reject (g : Heap) (d : Bytes) :
    Serialize g .nil = [] ∧
    ((Deserialize g d).2 = .nil ↔
      d.length < 4 ∨ ∃ c rest, readU32 d = some (c, rest) ∧
        (c = 0 ∨ parseLayers c rest = [])) := by
  refine ⟨?_, deserialize_nil_iff g d⟩
  unfold Serialize
  rw [if_pos rfl]

/-- Claim C2 counterexample: this input declares 2 layers; the first parses
(message "a"), and the second's declared message length 100 exceeds the 0
remaining bytes (`readLayer` of the leftover `[100,0,0,0]` fails), yet
`Deserialize` returns a non-nil one-layer chain rather than Nil. -/
theorem c2_counterexample :
    readLayer [100, 0, 0, 0] = none ∧
    (Deserialize emptyHeap
        [2, 0, 0, 0, 1, 0, 0, 0, 97, 0, 0, 0, 0, 0, 0, 0, 0, 100, 0, 0, 0]).2
      ≠ Error.nil := by decide

/-- Claim C7: `Deserialize` never reserves storage proportional to an
attacker-declared layer count: the reserve argument is capped by
`remaining_bytes / 12`, inputs below the 4-byte header decode to Nil, and
the decoded chain never has more layers than `remaining_bytes / 12`. -/
theorem c7_deserialize_bounded (g : Heap) (d : Bytes) (hWF : g.WF) :
    deserializeReserve d ≤ (d.length - 4) / 12 ∧
    (d.length < 4 → (Deserialize g d).2 = .nil) ∧
    ((Deserialize g d).2 = .nil ∨
      (chainF (Deserialize g d).1 (fuelOf (Deserialize g d).1)
        (Deserialize g d).2).length ≤ (d.length - 4) / 12) := by
  refine ⟨?_, ?_, ?_⟩
  · unfold deserializeReserve
    cases hr : readU32 d with
    | none => exact Nat.zero_le _
    | some pr =>
      obtain ⟨c, rest⟩ := pr
      have hrl := readU32_length hr
      show min c (rest.length / 12) ≤ (d.length - 4) / 12
      omega
  · intro hlen
    exact (deserialize_nil_iff g d).mpr (Or.inl hlen)
  · by_cases hlen : d.length < 4
    · exact Or.inl ((deserialize_nil_iff g d).mpr (Or.inl hlen))
    · obtain ⟨c, rest, hread⟩ := readU32_isSome d (by omega)
      by_cases hc : c = 0
      · exact Or.inl ((deserialize_nil_iff g d).mpr
          (Or.inr ⟨c, rest, hread, Or.inl hc⟩))
      · by_cases hpl : parseLayers c rest = []
        · exact Or.inl ((deserialize_nil_iff g d).mpr
            (Or.inr ⟨c, rest, hread, Or.inr hpl⟩))
        · refine Or.inr ?_
          rw [deserialize_result g d hread hlen hc hpl]
          obtain ⟨-, -, -, -, -, -, hchain⟩ := buildChain_spec (parseLayers c rest) g hWF
          have hlen1 : (chainF (buildChain g (parseLayers c rest)).1
              (fuelOf (buildChain g (parseLayers c rest)).1)
              (buildChain g (parseLayers c rest)).2).length
              = (parseLayers c rest).length := by
            have := congrArg List.length hchain
            simpa using this
          rw [hlen1]
          have hcap := parseLayers_length_le c rest
          have hrl := readU32_length hread
          omega

end Errors

namespace Errors

theorem isF_step (h : Heap) (t : Error) (f : Nat) (e : Error) :
    isF h t (f + 1) e =
      ((e == t) || matchesAt h e t ||
       (match unwrapE h e with
        | some e' => isF h t f e'
        | none => false)) := rfl

theorem matchesAt_eq_false (h : Heap) (c t : Error) : matchesAt h c t = false := by
  unfold matchesAt
  cases implOf h c <;> rfl

/-- Claim C7 witness: decoding the 2-byte input "ab" in the empty heap. -/
theorem c7_witness :
    emptyHeap.WF ∧
    (deserializeReserve [97, 98] ≤ (([97, 98] : Bytes).length - 4) / 12 ∧
     (([97, 98] : Bytes).length < 4 → (Deserialize emptyHeap [97, 98]).2 = .nil) ∧
     ((Deserialize emptyHeap [97, 98]).2 = .nil ∨
       (chainF (Deserialize emptyHeap [97, 98]).1
         (fuelOf (Deserialize emptyHeap [97, 98]).1)
         (Deserialize emptyHeap [97, 98]).2).length
           ≤ (([97, 98] : Bytes).length - 4) / 12)) :=
  ⟨by decide, c7_deserialize_bounded emptyHeap [97, 98] (by decide)⟩

/-- Claim C5: two handles compare equal with `==` iff they reference the
identical node instance (same dynamic node id or same sentinel) or both are
Nil; and two handles independently constructed via `New` with identical text
are never equal and never `Is`-equal to each other, so equal message text
does not imply equality. -/
theorem c5_identity_equality (h : Heap) (m : Bytes) :
    (∀ e1 e2 : Error, e1 = e2 ↔
      ((e1 = .nil ∧ e2 = .nil) ∨ (∃ s, e1 = .sent s ∧ e2 = .sent s) ∨
       (∃ i, e1 = .dyn i ∧ e2 = .dyn i))) ∧
    (New h m).2 ≠ (New (New h m).1 m).2 ∧
    Is (New (New h m).1 m).1 (New h m).2 (New (New h m).1 m).2 = false ∧
    Is (New (New h m).1 m).1 (New (New h m).1 m).2 (New h m).2 = false := by
  have ha : (New h m).2 = Error.dyn h.next := rfl
  have hb : (New (New h m).1 m).2 = Error.dyn (h.next + 1) := rfl
  have himpl1 : implOf (New (New h m).1 m).1 (Error.dyn h.next) =
      some (.dyn m .nil) := by
    rw [implOf_dyn,
      show (New (New h m).1 m).1 = (alloc (New h m).1 (.dyn m .nil)).1 from rfl,
      implAt_alloc_lt (New h m).1 (.dyn m .nil) h.next (by
        show h.next ≠ h.next + 1
        omega)]
    exact implAt_alloc_self h (.dyn m .nil)
  have himpl2 : implOf (New (New h m).1 m).1 (Error.dyn (h.next + 1)) =
      some (.dyn m .nil) := implAt_alloc_self (New h m).1 (.dyn m .nil)
  have hu1 : unwrapE (New (New h m).1 m).1 (Error.dyn h.next) = none := by
    unfold unwrapE
    rw [himpl1]
    rfl
  have hu2 : unwrapE (New (New h m).1 m).1 (Error.dyn (h.next + 1)) = none := by
    unfold unwrapE
    rw [himpl2]
    rfl
  refine ⟨?_, ?_, ?_, ?_⟩
  · intro e1 e2
    cases e1 <;> cases e2 <;> simp <;> exact eq_comm
  · rw [ha, hb]
    intro hcon
    injection hcon with h'
    omega
  · show isF (New (New h m).1 m).1 (New (New h m).1 m).2
        (fuelOf (New (New h m).1 m).1) (New h m).2 = false
    rw [ha, hb, show fuelOf (New (New h m).1 m).1 = (h.next + 3) + 1 from rfl,
        isF_step, hu1, matchesAt_eq_false]
    have hne : (Error.dyn h.next == Error.dyn (h.next + 1)) = false := by
      rw [beq_eq_false_iff_ne]
      intro hcon
      injection hcon with h'
      omega
    rw [hne]
    rfl
  · show isF (New (New h m).1 m).1 (New h m).2
        (fuelOf (New (New h m).1 m).1) (New (New h m).1 m).2 = false
    rw [ha, hb, show fuelOf (New (New h m).1 m).1 = (h.next + 3) + 1 from rfl,
        isF_step, hu2, matchesAt_eq_false]
    have hne : (Error.dyn (h.next + 1) == Error.dyn h.next) = false := by
      rw [beq_eq_false_iff_ne]
      intro hcon
      injection hcon with h'
      omega
    rw [hne]
    rfl

/-- Claim C8: a chain containing a Sentinel layer or a layer whose payload
lacks the wire-serialization capability tests as not serializable as a
whole, yet `Serialize` does not abort on such a chain: it still encodes
every layer, and the offending layer's type-url and payload fields degrade
to empty strings in the encoded output. -/
theorem c8_nonserializable_layer (h : Heap) (e : Error) (impl : Impl)
    (hmem : impl ∈ chainF h (fuelOf h) e)
    (hkind : (∃ m, impl = .sentinelImpl m) ∨
             (∃ m i p, impl = .det m i p ∧ p.hasWire = false)) :
    IsSerializable h e = false ∧
    impl.payload_type_url = [] ∧
    impl.serialize_payload = [] ∧
    Serialize h e =
      u32enc (chainF h (fuelOf h) e).length ++
        ((chainF h (fuelOf h) e).map viewOf).flatMap encLayer := by
  have hser : impl.is_serializable = false := by
    rcases hkind with ⟨m, rfl⟩ | ⟨m, i, p, rfl, hw⟩ <;>
      simp [Impl.is_serializable, *]
  have hne : e ≠ .nil := by
    intro hcon
    subst hcon
    rw [chainF_nilE] at hmem
    cases hmem
  refine ⟨?_, ?_, ?_, ?_⟩
  · unfold IsSerializable
    rw [if_neg hne]
    exact isSerializableF_false hser _ _ hmem
  · rcases hkind with ⟨m, rfl⟩ | ⟨m, i, p, rfl, hw⟩ <;>
      simp [Impl.payload_type_url, *]
  · rcases hkind with ⟨m, rfl⟩ | ⟨m, i, p, rfl, hw⟩ <;>
      simp [Impl.serialize_payload, *]
  · unfold Serialize
    rw [if_neg hne]

/-- Claim C8 witness: the chain `Wrap(sentinel "p", "x")` on a heap with one
sentinel. -/
theorem c8_witness :
    ((Impl.sentinelImpl [112]) ∈
      chainF ⟨1, [(0, ⟨.dyn [120] (.sent 0), 1⟩)], [(0, [112])]⟩
        (fuelOf ⟨1, [(0, ⟨.dyn [120] (.sent 0), 1⟩)], [(0, [112])]⟩)
        (.dyn 0)) ∧
    (IsSerializable ⟨1, [(0, ⟨.dyn [120] (.sent 0), 1⟩)], [(0, [112])]⟩
        (.dyn 0) = false ∧
     (Impl.sentinelImpl [112]).payload_type_url = [] ∧
     (Impl.sentinelImpl [112]).serialize_payload = [] ∧
     Serialize ⟨1, [(0, ⟨.dyn [120] (.sent 0), 1⟩)], [(0, [112])]⟩ (.dyn 0) =
       u32enc (chainF ⟨1, [(0, ⟨.dyn [120] (.sent 0), 1⟩)], [(0, [112])]⟩
           (fuelOf ⟨1, [(0, ⟨.dyn [120] (.sent 0), 1⟩)], [(0, [112])]⟩)
           (.dyn 0)).length ++
         ((chainF ⟨1, [(0, ⟨.dyn [120] (.sent 0), 1⟩)], [(0, [112])]⟩
            (fuelOf ⟨1, [(0, ⟨.dyn [120] (.sent 0), 1⟩)], [(0, [112])]⟩)
            (.dyn 0)).map viewOf).flatMap encLayer) :=
  ⟨by decide,
   c8_nonserializable_layer ⟨1, [(0, ⟨.dyn [120] (.sent 0), 1⟩)], [(0, [112])]⟩
     (.dyn 0) (.sentinelImpl [112]) (by decide) (Or.inl ⟨[112], rfl⟩)⟩

/-- Claim C9: `Result<T>` built from a value is in the success state with
`ok()` true and `*r` the value; built from a non-nil error it is in the
failure state with `ok()` false; a nil error in the failure slot is not
representable (the construction assert rejects it); and `value()` in the
failure state or `error()` in the success state is a precondition violation
(no value to return). -/
theorem c9_result_states (T : Type) (v : T) (e : Error) (he : e ≠ .nil) :
    (ResultV.ofValue v).ok = true ∧
    (ResultV.ofValue v).value? = some v ∧
    (ResultV.ofValue v).error? = none ∧
    (ResultV.mkFailure .nil : Option (ResultV T)) = none ∧
    (∃ r : ResultV T, ResultV.mkFailure e = some r ∧ r.ok = false ∧
      r.value? = none ∧ r.error? = some e) := by
  refine ⟨rfl, rfl, rfl, ?_, ?_⟩
  · unfold ResultV.mkFailure
    rw [if_pos rfl]
  · refine ⟨.failure e, ?_, rfl, rfl, rfl⟩
    unfold ResultV.mkFailure
    rw [if_neg he]

/-- Claim C9 witness: `Result<Nat>` holding 42 and a failure holding the
handle of node 0. -/
theorem c9_witness :
    (Error.dyn 0 ≠ Error.nil) ∧
    ((ResultV.ofValue 42).ok = true ∧
     (ResultV.ofValue 42).value? = some 42 ∧
     (ResultV.ofValue 42 : ResultV Nat).error? = none ∧
     (ResultV.mkFailure .nil : Option (ResultV Nat)) = none ∧
     (∃ r : ResultV Nat, ResultV.mkFailure (.dyn 0) = some r ∧ r.ok = false ∧
       r.value? = none ∧ r.error? = some (.dyn 0))) :=
  ⟨by decide, c9_result_states Nat 42 (Error.dyn 0) (by decide)⟩

end Errors

namespace Errors

theorem New_eq (h : Heap) (m : Bytes) : New h m = alloc h (.dyn m .nil) := rfl

theorem Wrap_eq (h : Heap) (e : Error) (m : Bytes) :
    Wrap h e m = alloc h (.dyn m e) := rfl

theorem implOf_isSome {h : Heap} {e : Error} (hOK : ERefOK h e)
    (hne : e ≠ .nil) : ∃ i0, implOf h e = some i0 := by
  cases e with
  | nil => exact absurd rfl hne
  | sent s =>
    have hs : (h.sents.lookup s).isSome = true := hOK
    cases hlk : h.sents.lookup s with
    | none => rw [hlk] at hs; simp at hs
    | some ms =>
      exact ⟨.sentinelImpl ms, by rw [implOf_sent, hlk]; rfl⟩
  | dyn i =>
    obtain ⟨-, hsome⟩ := hOK
    cases himp : implAt h i with
    | none => rw [himp] at hsome; simp at hsome
    | some impl => exact ⟨impl, by rw [implOf_dyn]; exact himp⟩

/-- Claim C3 (amended): `New(m).what() == m` and `New(m).message() == m` for
every message m; `Wrap(e, m).what() == m` for every handle e and message m;
and `Wrap(e, m).message() == m + ": " + e.message()` for non-nil e provided
m and e's outermost layer message are non-empty (the separator is skipped
while the accumulated result is still empty, so the law fails for empty
messages). -/
theorem c3_new_wrap_message (h : Heap) (e : Error) (m : Bytes)
    (hWF : h.WF) (hOK : ERefOK h e) :
    what (New h m).1 (New h m).2 = m ∧
    message (New h m).1 (New h m).2 = m ∧
    what (Wrap h e m).1 (Wrap h e m).2 = m ∧
    (e ≠ .nil → m ≠ [] → what h e ≠ [] →
      message (Wrap h e m).1 (Wrap h e m).2 = m ++ sepColon ++ message h e) := by
  have hchNew : ∀ impl : Impl, impl.unwrapI = none →
      chainF (alloc h impl).1 (fuelOf (alloc h impl).1) (Error.dyn h.next) =
        [impl] := by
    intro impl hu
    rw [show fuelOf (alloc h impl).1 = fuelOf h + 1 from rfl, chainF_succ,
        implOf_dyn, implAt_alloc_self]
    dsimp only
    rw [hu]
  refine ⟨?_, ?_, ?_, ?_⟩
  · show (match implOf (alloc h (.dyn m .nil)).1 (Error.dyn h.next) with
          | some impl => impl.message_view
          | none => []) = m
    rw [implOf_dyn, implAt_alloc_self]
    rfl
  · show message (alloc h (.dyn m .nil)).1 (Error.dyn h.next) = m
    unfold message
    rw [if_neg (by intro hcon; cases hcon),
        hchNew (.dyn m .nil) (by simp [Impl.unwrapI, Impl.innerE])]
    rfl
  · show (match implOf (alloc h (.dyn m e)).1 (Error.dyn h.next) with
          | some impl => impl.message_view
          | none => []) = m
    rw [implOf_dyn, implAt_alloc_self]
    rfl
  · intro hne hm hwhat
    obtain ⟨i0, hio⟩ := implOf_isSome hOK hne
    have hwv : what h e = i0.message_view := by
      unfold what
      rw [hio]
    obtain ⟨vrest, hrest⟩ : ∃ vrest,
        chainF h (fuelOf h) e = i0 :: vrest := by
      rw [show fuelOf h = (h.next + 1) + 1 from rfl, chainF_succ, hio]
      exact ⟨_, rfl⟩
    have hch : chainF (alloc h (.dyn m e)).1 (fuelOf (alloc h (.dyn m e)).1)
        (Error.dyn h.next) = Impl.dyn m e :: chainF h (fuelOf h) e := by
      rw [show fuelOf (alloc h (.dyn m e)).1 = fuelOf h + 1 from rfl, chainF_succ,
          implOf_dyn, implAt_alloc_self]
      dsimp only
      have hu : (Impl.dyn m e).unwrapI = some e := by
        simp [Impl.unwrapI, Impl.innerE, hne]
      rw [hu]
      congr 1
      exact chainF_ext h (alloc h (.dyn m e)).1 rfl hWF
        (fun j hj => implAt_alloc_lt h _ j (by omega)) (fuelOf h) e hOK
    show message (alloc h (.dyn m e)).1 (Error.dyn h.next) = _
    unfold message
    rw [if_neg (by intro hcon; cases hcon), if_neg hne, hch, hrest,
        List.map_cons, List.map_cons]
    show srcJoin (m :: i0.message_view :: List.map Impl.message_view vrest) =
      m ++ sepColon ++ srcJoin (i0.message_view :: List.map Impl.message_view vrest)
    rw [srcJoin_cons _ hm, srcJoin_cons _ (hwv ▸ hwhat), List.flatMap_cons]
    simp [List.append_assoc]

/-- Claim C3 counterexample: wrapping with the empty message: the separator
is skipped because the accumulated result is still empty, so
`Wrap(New("x"), "").message()` is "x", not ": x" as the claimed law
requires for the non-nil inner handle. -/
theorem c3_counterexample :
    (New emptyHeap [120]).2 ≠ Error.nil ∧
    message (Wrap (New emptyHeap [120]).1 (New emptyHeap [120]).2 []).1
        (Wrap (New emptyHeap [120]).1 (New emptyHeap [120]).2 []).2 ≠
      [] ++ sepColon ++ message (New emptyHeap [120]).1 (New emptyHeap [120]).2 := by
  decide

/-- Claim C3 witness: wrapping the one-layer chain "x" with "y". -/
theorem c3_witness :
    ((New emptyHeap [120]).1.WF ∧ ERefOK (New emptyHeap [120]).1 (New emptyHeap [120]).2) ∧
    (what (New (New emptyHeap [120]).1 [121]).1 (New (New emptyHeap [120]).1 [121]).2 = [121] ∧
     message (New (New emptyHeap [120]).1 [121]).1 (New (New emptyHeap [120]).1 [121]).2 = [121] ∧
     what (Wrap (New emptyHeap [120]).1 (New emptyHeap [120]).2 [121]).1
       (Wrap (New emptyHeap [120]).1 (New emptyHeap [120]).2 [121]).2 = [121] ∧
     ((New emptyHeap [120]).2 ≠ .nil → [121] ≠ ([] : Bytes) →
       what (New emptyHeap [120]).1 (New emptyHeap [120]).2 ≠ [] →
       message (Wrap (New emptyHeap [120]).1 (New emptyHeap [120]).2 [121]).1
         (Wrap (New emptyHeap [120]).1 (New emptyHeap [120]).2 [121]).2 =
       [121] ++ sepColon ++ message (New emptyHeap [120]).1 (New emptyHeap [120]).2)) :=
  ⟨⟨by decide, by decide⟩,
   c3_new_wrap_message (New emptyHeap [120]).1 (New emptyHeap [120]).2 [121]
     (by decide) (by decide)⟩

end Errors

namespace Errors

theorem chainF_cons_of_ne {h : Heap} {e : Error} (hOK : ERefOK h e)
    (hne : e ≠ .nil) : ∃ i0 rest, chainF h (fuelOf h) e = i0 :: rest := by
  obtain ⟨i0, hio⟩ := implOf_isSome hOK hne
  rw [show fuelOf h = (h.next + 1) + 1 from rfl, chainF_succ, hio]
  exact ⟨i0, _, rfl⟩

theorem degrade_msg (L : Layer) : (degrade L).msg = L.msg := by
  unfold degrade
  split <;> rfl

theorem map_message_view_eq (l : List Impl) :
    l.map Impl.message_view = (l.map viewOf).map Layer.msg := by
  rw [List.map_map]
  exact List.map_congr_left fun a _ => rfl

/-- Claim C1 (amended): for every handle composed only of serializable
layers whose field sizes fit in `uint32_t`, `Deserialize(Serialize(x))`
produces a chain with the same number of layers, the same per-layer message
at each position (hence the same `message()`), and — for every layer whose
type identifier is non-empty — the same (type-identifier, raw-bytes) payload
content.  A wire-serializable payload whose type name is empty is decoded as
a payload-less dynamic layer, so its raw bytes are not reproduced; original
payload types and sentinel identity are likewise not reproduced. -/
theorem c1_roundtrip (h g : Heap) (e : Error)
    (hWF : h.WF) (hgWF : g.WF) (hOK : ERefOK h e) (hne : e ≠ .nil)
    (hser : ∀ impl ∈ chainF h (fuelOf h) e, impl.is_serializable = true)
    (hcnt : (chainF h (fuelOf h) e).length < 4294967296)
    (hfit : ∀ impl ∈ chainF h (fuelOf h) e,
      impl.message_view.length < 4294967296 ∧
      impl.payload_type_url.length < 4294967296 ∧
      impl.serialize_payload.length < 4294967296) :
    chainViews (Deserialize g (Serialize h e)).1
        (Deserialize g (Serialize h e)).2 = (chainViews h e).map degrade ∧
    (chainViews (Deserialize g (Serialize h e)).1
        (Deserialize g (Serialize h e)).2).length = (chainViews h e).length ∧
    (chainViews (Deserialize g (Serialize h e)).1
        (Deserialize g (Serialize h e)).2).map Layer.msg =
      (chainViews h e).map Layer.msg ∧
    message (Deserialize g (Serialize h e)).1
        (Deserialize g (Serialize h e)).2 = message h e ∧
    (∀ L ∈ chainViews h e, L.type_url ≠ [] → degrade L = L) := by
  obtain ⟨i0, crest, hcons⟩ := chainF_cons_of_ne hOK hne
  have hLs : chainViews h e = (chainF h (fuelOf h) e).map viewOf := rfl
  have hser' : Serialize h e =
      u32enc (chainF h (fuelOf h) e).length ++
        (chainViews h e).flatMap encLayer := by
    unfold Serialize
    rw [if_neg hne]
    rfl
  have hlenLs : (chainViews h e).length = (chainF h (fuelOf h) e).length := by
    rw [hLs, List.length_map]
  have hread : readU32 (Serialize h e) =
      some ((chainF h (fuelOf h) e).length, (chainViews h e).flatMap encLayer) := by
    rw [hser']
    exact readU32_enc _ _ hcnt
  have hcstruct : ¬(Serialize h e).length < 4 := by
    rw [hser']
    simp [u32enc]
  have hc0 : (chainF h (fuelOf h) e).length ≠ 0 := by
    rw [hcons]
    simp
  have hparse : parseLayers (chainF h (fuelOf h) e).length
      ((chainViews h e).flatMap encLayer) = chainViews h e := by
    have := parseLayers_enc (chainViews h e) ?_
    · rw [hlenLs] at this
      exact this
    · intro L hL
      rw [hLs] at hL
      obtain ⟨impl, hmem, rfl⟩ := List.mem_map.mp hL
      exact hfit impl hmem
  have hpne : parseLayers (chainF h (fuelOf h) e).length
      ((chainViews h e).flatMap encLayer) ≠ [] := by
    rw [hparse, hLs, hcons]
    simp
  have hres : Deserialize g (Serialize h e) = buildChain g (chainViews h e) := by
    rw [show Deserialize g (Serialize h e) =
        buildChain g (parseLayers (chainF h (fuelOf h) e).length
          ((chainViews h e).flatMap encLayer)) from
      deserialize_result g (Serialize h e) hread hcstruct hc0 hpne]
    rw [hparse]
  obtain ⟨bWF, bsents, bnext, bimpl, bok, bnil, bchain⟩ :=
    buildChain_spec (chainViews h e) g hgWF
  have hviews : chainViews (Deserialize g (Serialize h e)).1
      (Deserialize g (Serialize h e)).2 = (chainViews h e).map degrade := by
    rw [hres]
    exact bchain
  refine ⟨hviews, ?_, ?_, ?_, ?_⟩
  · rw [hviews, List.length_map]
  · rw [hviews, List.map_map]
    exact List.map_congr_left fun L _ => degrade_msg L
  · have hrne : (Deserialize g (Serialize h e)).2 ≠ .nil := by
      rw [hres]
      exact bnil (by rw [hLs, hcons]; simp)
    unfold message
    rw [if_neg hrne, if_neg hne, map_message_view_eq, map_message_view_eq]
    rw [show (chainF (Deserialize g (Serialize h e)).1
        (fuelOf (Deserialize g (Serialize h e)).1)
        (Deserialize g (Serialize h e)).2).map viewOf =
        (chainViews h e).map degrade from hviews]
    have hmm : ((chainViews h e).map degrade).map Layer.msg =
        ((chainF h (fuelOf h) e).map viewOf).map Layer.msg := by
      rw [List.map_map]
      exact List.map_congr_left fun L _ => degrade_msg L
    exact congrArg srcJoin hmm
  · intro L hL hurl
    unfold degrade
    rw [if_neg hurl]

/-- Claim C1 counterexample: a single serializable layer whose payload is
wire-serializable but has an empty type name (`GetTypeName()` returns "").
Its encoded layer is (msg, "", bytes); decoding sees the empty type url and
rebuilds a plain dynamic layer, so the raw payload bytes [7] are lost and
the round-tripped (type-identifier, raw-bytes) content differs. -/
theorem c1_counterexample :
    (∀ impl ∈ chainF ⟨1, [(0, ⟨.det [109] .nil ⟨0, true, [], [7], false, []⟩, 1⟩)], []⟩
        (fuelOf ⟨1, [(0, ⟨.det [109] .nil ⟨0, true, [], [7], false, []⟩, 1⟩)], []⟩)
        (.dyn 0), impl.is_serializable = true) ∧
    chainViews
        (Deserialize emptyHeap
          (Serialize ⟨1, [(0, ⟨.det [109] .nil ⟨0, true, [], [7], false, []⟩, 1⟩)], []⟩
            (.dyn 0))).1
        (Deserialize emptyHeap
          (Serialize ⟨1, [(0, ⟨.det [109] .nil ⟨0, true, [], [7], false, []⟩, 1⟩)], []⟩
            (.dyn 0))).2 ≠
      chainViews ⟨1, [(0, ⟨.det [109] .nil ⟨0, true, [], [7], false, []⟩, 1⟩)], []⟩
        (.dyn 0) := by
  decide

/-- Claim C1 witness: round-tripping a one-layer chain with message "a" and
a wire payload of type name "T" and bytes [1, 2] through an empty target
heap. -/
theorem c1_witness :
    (Heap.WF ⟨1, [(0, ⟨.det [97] .nil ⟨0, true, [84], [1, 2], false, []⟩, 1⟩)], []⟩ ∧
     emptyHeap.WF ∧
     ERefOK ⟨1, [(0, ⟨.det [97] .nil ⟨0, true, [84], [1, 2], false, []⟩, 1⟩)], []⟩ (.dyn 0) ∧
     (Error.dyn 0 ≠ Error.nil) ∧
     (∀ impl ∈ chainF ⟨1, [(0, ⟨.det [97] .nil ⟨0, true, [84], [1, 2], false, []⟩, 1⟩)], []⟩
        (fuelOf ⟨1, [(0, ⟨.det [97] .nil ⟨0, true, [84], [1, 2], false, []⟩, 1⟩)], []⟩)
        (.dyn 0), impl.is_serializable = true) ∧
     (chainF ⟨1, [(0, ⟨.det [97] .nil ⟨0, true, [84], [1, 2], false, []⟩, 1⟩)], []⟩
        (fuelOf ⟨1, [(0, ⟨.det [97] .nil ⟨0, true, [84], [1, 2], false, []⟩, 1⟩)], []⟩)
        (.dyn 0)).length < 4294967296 ∧
     (∀ impl ∈ chainF ⟨1, [(0, ⟨.det [97] .nil ⟨0, true, [84], [1, 2], false, []⟩, 1⟩)], []⟩
        (fuelOf ⟨1, [(0, ⟨.det [97] .nil ⟨0, true, [84], [1, 2], false, []⟩, 1⟩)], []⟩)
        (.dyn 0),
        impl.message_view.length < 4294967296 ∧
        impl.payload_type_url.length < 4294967296 ∧
        impl.serialize_payload.length < 4294967296)) ∧
    chainViews
        (Deserialize emptyHeap
          (Serialize ⟨1, [(0, ⟨.det [97] .nil ⟨0, true, [84], [1, 2], false, []⟩, 1⟩)], []⟩
            (.dyn 0))).1
        (Deserialize emptyHeap
          (Serialize ⟨1, [(0, ⟨.det [97] .nil ⟨0, true, [84], [1, 2], false, []⟩, 1⟩)], []⟩
            (.dyn 0))).2 =
      (chainViews ⟨1, [(0, ⟨.det [97] .nil ⟨0, true, [84], [1, 2], false, []⟩, 1⟩)], []⟩
        (.dyn 0)).map degrade :=
  ⟨⟨by decide, by decide, by decide, by decide, by decide, by decide, by decide⟩,
   (c1_roundtrip ⟨1, [(0, ⟨.det [97] .nil ⟨0, true, [84], [1, 2], false, []⟩, 1⟩)], []⟩
     emptyHeap (.dyn 0) (by decide) (by decide) (by decide) (by decide)
     (by decide) (by decide) (by decide)).1⟩

end Errors

namespace Errors

/-! ### Copy-on-write helper lemmas -/

theorem get_payload_withInner (impl : Impl) (x : Error) (τ : Nat) :
    (impl.withInner x).get_payload τ = impl.get_payload τ := by
  cases impl <;> rfl

theorem innerE_withInner {impl : Impl} (hne : impl.innerE ≠ .nil) (x : Error) :
    (impl.withInner x).innerE = x := by
  cases impl with
  | dyn m i => rfl
  | det m i p => rfl
  | sentinelImpl m => exact absurd rfl hne

theorem get_payload_some {impl : Impl} {τ : Nat} {p : PayloadVal}
    (h : impl.get_payload τ = some p) :
    ∃ m i, impl = .det m i p ∧ p.tyId = τ := by
  cases impl with
  | dyn m i => cases h
  | sentinelImpl m => cases h
  | det m i q =>
    have h' : (if q.tyId = τ then some q else none) = some p := h
    by_cases hq : q.tyId = τ
    · rw [if_pos hq] at h'
      cases h'
      exact ⟨m, i, rfl, hq⟩
    · rw [if_neg hq] at h'
      cases h'

theorem mem_setNode {l : List (Nat × Node)} {i : Nat} {f : Node → Node}
    {p : Nat × Node} (hp : p ∈ setNode l i f) :
    ∃ q ∈ l, p.1 = q.1 ∧ (p.2 = q.2 ∨ (q.1 = i ∧ p.2 = f q.2)) := by
  unfold setNode at hp
  obtain ⟨q, hq, hpq⟩ := List.mem_map.mp hp
  by_cases hqi : q.1 = i
  · rw [if_pos hqi] at hpq
    exact ⟨q, hq, by rw [← hpq], Or.inr ⟨hqi, by rw [← hpq]⟩⟩
  · rw [if_neg hqi] at hpq
    exact ⟨q, hq, by rw [← hpq], Or.inl (by rw [← hpq])⟩

theorem mem_val_eq_of_nodup {l : List (Nat × Node)}
    (hnd : (l.map Prod.fst).Nodup) {i : Nat} {v w : Node}
    (hv : (i, v) ∈ l) (hw : l.lookup i = some w) : v = w := by
  induction l with
  | nil => cases hv
  | cons q t ih =>
    obtain ⟨a, b⟩ := q
    rw [lookup_cons_eq_if] at hw
    rw [List.map_cons] at hnd
    rcases List.mem_cons.mp hv with hv1 | hv2
    · cases hv1
      rw [if_pos rfl] at hw
      cases hw
      rfl
    · by_cases hia : i = a
      · subst hia
        exfalso
        have : i ∈ t.map Prod.fst := List.mem_map.mpr ⟨(i, v), hv2, rfl⟩
        exact (List.nodup_cons.mp hnd).1 this
      · rw [if_neg hia] at hw
        exact ih (List.nodup_cons.mp hnd).2 hv2 hw

theorem copyError_nodes_map_fst (h : Heap) (e : Error) :
    (copyError h e).nodes.map Prod.fst = h.nodes.map Prod.fst := by
  cases e with
  | nil => rfl
  | sent s => rfl
  | dyn j =>
    show (setNode h.nodes j fun n => ⟨n.impl, n.refc + 1⟩).map Prod.fst = _
    exact setNode_map_fst _ _ _

theorem refcAt_copyError_dyn (h : Heap) (j : Nat)
    (hpres : (h.nodes.lookup j).isSome = true) :
    refcAt (copyError h (.dyn j)) j = refcAt h j + 1 := by
  unfold copyError refcAt
  rw [lookup_setNode, if_pos rfl]
  cases hl : h.nodes.lookup j with
  | none => rw [hl] at hpres; simp at hpres
  | some m => simp

theorem refcAt_copyError_other (h : Heap) (e : Error) (j : Nat)
    (hj : e ≠ .dyn j) : refcAt (copyError h e) j = refcAt h j := by
  cases e with
  | nil => rfl
  | sent s => rfl
  | dyn x =>
    have hxj : j ≠ x := fun hcon => hj (by rw [hcon])
    unfold copyError refcAt
    rw [lookup_setNode, if_neg hxj]

theorem WF_copyError {h : Heap} (hWF : h.WF) (e : Error) : (copyError h e).WF := by
  cases e with
  | nil => exact hWF
  | sent s => exact hWF
  | dyn x =>
    constructor
    · rw [copyError_nodes_map_fst]
      exact hWF.1
    · intro p hp
      have hp2 : p ∈ setNode h.nodes x fun n => ⟨n.impl, n.refc + 1⟩ := hp
      obtain ⟨q, hq, hfst, hval⟩ := mem_setNode hp2
      obtain ⟨h1, h2, h3⟩ := hWF.2 q hq
      have himpl : p.2.impl = q.2.impl := by
        rcases hval with hval | ⟨-, hval⟩
        · rw [hval]
        · rw [hval]
      have hrefc : 1 ≤ p.2.refc := by
        rcases hval with hval | ⟨-, hval⟩
        · rw [hval]; exact h2
        · rw [hval]
          show 1 ≤ q.2.refc + 1
          omega
      refine ⟨hfst ▸ h1, hrefc, ?_⟩
      rw [himpl, hfst]
      exact erefBound_congr h (copyError h (.dyn x)) rfl
        (fun j _ => by rw [implAt_copyError]) h3

theorem cowHeap_sents (h : Heap) (i : Nat) (n : Node) :
    (cowHeap h i n).sents = h.sents := rfl

theorem cowHeap_next (h : Heap) (i : Nat) (n : Node) :
    (cowHeap h i n).next = h.next + 1 := rfl

theorem implAt_cowHeap_new (h : Heap) (i : Nat) (n : Node) :
    implAt (cowHeap h i n) h.next = some n.impl := by
  unfold cowHeap implAt
  rw [lookup_cons_eq_if, if_pos rfl]
  rfl

theorem implAt_cowHeap_old (h : Heap) (i : Nat) (n : Node) (j : Nat)
    (hj : j ≠ h.next) : implAt (cowHeap h i n) j = implAt h j := by
  have hca := implAt_copyError h n.impl.innerE j
  unfold cowHeap implAt
  rw [lookup_cons_eq_if, if_neg hj, lookup_setNode]
  unfold implAt at hca
  by_cases hji : j = i
  · rw [if_pos hji, ← hca]
    cases (copyError h n.impl.innerE).nodes.lookup j <;> simp
  · rw [if_neg hji, ← hca]

theorem refcAt_cowHeap_inner (h : Heap) (i : Nat) (n : Node) (j : Nat)
    (hjn : j ≠ h.next) (hji : j ≠ i) (hinner : n.impl.innerE = .dyn j)
    (hpres : (h.nodes.lookup j).isSome = true) :
    refcAt (cowHeap h i n) j = refcAt h j + 1 := by
  unfold cowHeap refcAt
  rw [lookup_cons_eq_if, if_neg hjn, lookup_setNode, if_neg hji]
  have hc := refcAt_copyError_dyn h j hpres
  rw [hinner]
  unfold refcAt at hc
  exact hc

theorem WF_cowHeap {h : Heap} (hWF : h.WF) {i : Nat} {n : Node}
    (hln : h.nodes.lookup i = some n) (hrc : 2 ≤ n.refc) : (cowHeap h i n).WF := by
  obtain ⟨hi_lt, -, hi_inner⟩ := WF_node hWF hln
  have hpres : ∀ j, j < h.next →
      (implAt (cowHeap h i n) j).isSome = (implAt h j).isSome := by
    intro j hj
    rw [implAt_cowHeap_old h i n j (by omega)]
  constructor
  · show (List.map Prod.fst ((h.next, (⟨n.impl, 1⟩ : Node)) :: _)).Nodup
    rw [List.map_cons]
    refine List.Nodup.cons ?_ ?_
    · intro hmem
      rw [setNode_map_fst, copyError_nodes_map_fst] at hmem
      obtain ⟨p, hp, hfst⟩ := List.mem_map.mp hmem
      have := (hWF.2 p hp).1
      omega
    · rw [setNode_map_fst, copyError_nodes_map_fst]
      exact hWF.1
  · intro p hp
    have hp1 : p ∈ (h.next, (⟨n.impl, 1⟩ : Node)) ::
        setNode (copyError h n.impl.innerE).nodes i
          (fun m => ⟨m.impl, m.refc - 1⟩) := hp
    rcases List.mem_cons.mp hp1 with rfl | hp'
    · refine ⟨Nat.lt_succ_self _, Nat.le_refl 1, ?_⟩
      show ErefBound (cowHeap h i n) h.next n.impl.innerE
      exact erefBound_congr h (cowHeap h i n) rfl
        (fun j hj => hpres j hj)
        (erefBound_mono (Nat.le_of_lt hi_lt) hi_inner)
    · obtain ⟨q, hq, hfst, hval⟩ := mem_setNode hp'
      obtain ⟨q0, hq0, hfst0, hval0⟩ : ∃ q0 ∈ h.nodes, q.1 = q0.1 ∧
          (q.2 = q0.2 ∨ q.2.impl = q0.2.impl ∧ q.2.refc = q0.2.refc + 1) := by
        cases hie : n.impl.innerE with
        | nil =>
          rw [hie] at hq
          exact ⟨q, hq, rfl, Or.inl rfl⟩
        | sent s =>
          rw [hie] at hq
          exact ⟨q, hq, rfl, Or.inl rfl⟩
        | dyn x =>
          rw [hie] at hq
          have hq2 : q ∈ setNode h.nodes x fun m => ⟨m.impl, m.refc + 1⟩ := hq
          obtain ⟨q0, hq0, hfst0, hval0⟩ := mem_setNode hq2
          refine ⟨q0, hq0, hfst0, ?_⟩
          rcases hval0 with hval0 | ⟨-, hval0⟩
          · exact Or.inl hval0
          · exact Or.inr ⟨by rw [hval0], by rw [hval0]⟩
      obtain ⟨hb0, hr0, he0⟩ := hWF.2 q0 hq0
      have himpl_pq : p.2.impl = q0.2.impl := by
        rcases hval with hval | ⟨-, hval⟩ <;>
          rcases hval0 with hval0 | ⟨hval0, -⟩ <;>
            simp [hval, hval0]
      have hkey : p.1 = q0.1 := hfst.trans hfst0
      refine ⟨by show p.1 < h.next + 1; omega, ?_, ?_⟩
      · -- the reference count stays at least 1
        rcases hval with hval | ⟨hqi, hval⟩
        · rcases hval0 with hval0 | ⟨-, hval0⟩
          · rw [hval, hval0]; exact hr0
          · rw [hval, hval0]
            omega
        · -- p is the released entry at key i: its old count is n.refc ≥ 2
          have hq0i : q0.1 = i := hfst0 ▸ hqi
          have hq2n : q.2.refc = n.refc ∨ q.2.refc = n.refc + 1 := by
            have hq0n : q0.2 = n := by
              refine mem_val_eq_of_nodup hWF.1 ?_ hln
              rw [← hq0i]
              exact hq0
            rcases hval0 with hval0 | ⟨-, hval0⟩
            · exact Or.inl (by rw [hval0, hq0n])
            · exact Or.inr (by rw [hval0, hq0n])
          rw [hval]
          show 1 ≤ q.2.refc - 1
          omega
      · rw [himpl_pq, hkey]
        exact erefBound_congr h (cowHeap h i n) rfl
          (fun j hj => hpres j (Nat.lt_of_lt_of_le hj (Nat.le_of_lt hb0))) he0

end Errors

namespace Errors

theorem asMutGo_succ (τ f : Nat) (h : Heap) (e : Error) :
    asMutGo τ (f + 1) h e =
      match getMutableImpl h e with
      | (h1, e1, none) => (h1, e1, none)
      | (h1, e1, some nid) =>
        match implAt h1 nid with
        | none => (h1, e1, none)
        | some impl =>
          match impl.get_payload τ with
          | some _ => (h1, e1, some nid)
          | none =>
            match impl.unwrapI with
            | none => (h1, e1, none)
            | some e' =>
              let r := asMutGo τ f h1 e'
              (setInnerAt r.1 nid r.2.1, e1, r.2.2) := rfl

theorem getMutableImpl_cow {h : Heap} {i : Nat} {n : Node}
    (hln : h.nodes.lookup i = some n) (hrc : 1 < n.refc) :
    getMutableImpl h (.dyn i) = (cowHeap h i n, .dyn h.next, some h.next) := by
  unfold getMutableImpl
  dsimp only
  rw [hln]
  dsimp only
  rw [if_pos hrc]

/-- The specification of the copy-on-write walk of mutable `As<T>`: when the
payload is found and the entry node is shared, the walk clones every layer
down to the payload, returns a fresh handle, leaves every pre-existing impl
untouched, and the returned location reads back any value stored there. -/
theorem asMutGo_spec (τ : Nat) (p : PayloadVal) :
    ∀ f h e, Heap.WF h → ERefOK h e →
      (∀ i, e = Error.dyn i → 2 ≤ refcAt h i) →
      asConstF h τ f e = some p →
      ∃ h1 k nid,
        asMutGo τ f h e = (h1, Error.dyn k, some nid) ∧
        h.next ≤ k ∧ h.next ≤ nid ∧ nid < h1.next ∧ h.next ≤ h1.next ∧
        h1.sents = h.sents ∧
        (∀ j, j < h.next → implAt h1 j = implAt h j) ∧
        (∀ q H, q.tyId = τ → H.sents = h1.sents →
          (∀ j, h.next ≤ j → j < h1.next →
            implAt H j = implAt (setPayloadAt h1 nid q) j) →
          asConstF H τ f (Error.dyn k) = some q) := by
  intro f
  induction f with
  | zero => intro h e _ _ _ hfound; cases hfound
  | succ f ih =>
    intro h e hWF hOK hrefc hfound
    rw [asConstF_succ] at hfound
    cases e with
    | nil => simp [show implOf h Error.nil = none from rfl] at hfound
    | sent s =>
      exfalso
      cases hlk : h.sents.lookup s with
      | none =>
        rw [implOf_sent, hlk] at hfound
        simp at hfound
      | some ms =>
        rw [implOf_sent, hlk] at hfound
        simp [Impl.get_payload, Impl.unwrapI, Impl.innerE] at hfound
    | dyn i =>
      obtain ⟨hi_lt, hi_some⟩ := hOK
      obtain ⟨n, hln⟩ : ∃ n, h.nodes.lookup i = some n := by
        cases hl : h.nodes.lookup i with
        | none =>
          rw [show implAt h i = (h.nodes.lookup i).map (·.impl) from rfl, hl]
            at hi_some
          simp at hi_some
        | some n => exact ⟨n, rfl⟩
      have hrc : 2 ≤ n.refc := by
        have hr := hrefc i rfl
        unfold refcAt at hr
        rw [hln] at hr
        simpa using hr
      have himplAt : implAt h i = some n.impl := by
        unfold implAt
        rw [hln]
        rfl
      rw [implOf_dyn, himplAt] at hfound
      dsimp only at hfound
      have hgmi : getMutableImpl h (.dyn i) =
          (cowHeap h i n, .dyn h.next, some h.next) :=
        getMutableImpl_cow hln (by omega)
      have hWF2 : (cowHeap h i n).WF := WF_cowHeap hWF hln hrc
      have h2sents : (cowHeap h i n).sents = h.sents := rfl
      have h2next : (cowHeap h i n).next = h.next + 1 := rfl
      cases hpl : n.impl.get_payload τ with
      | some p0 =>
        rw [hpl] at hfound
        dsimp only at hfound
        have hp0 : p0 = p := by injection hfound
        subst hp0
        obtain ⟨dm, di, hdet, hty0⟩ := get_payload_some hpl
        refine ⟨cowHeap h i n, h.next, h.next, ?_, Nat.le_refl _, Nat.le_refl _,
          by omega, by omega, h2sents, ?_, ?_⟩
        · rw [asMutGo_succ, hgmi]
          dsimp only
          rw [implAt_cowHeap_new]
          dsimp only
          rw [hpl]
        · intro j hj
          exact implAt_cowHeap_old h i n j (by omega)
        · intro q H hqty hsH hagree
          rw [asConstF_succ]
          have hH : implOf H (.dyn h.next) = some (n.impl.withPayload q) := by
            rw [implOf_dyn, hagree h.next (Nat.le_refl _) (by omega),
                implAt_setPayloadAt_self, implAt_cowHeap_new]
            rfl
          rw [hH]
          dsimp only
          rw [hdet]
          rw [show (Impl.det dm di p0).withPayload q = Impl.det dm di q from rfl]
          dsimp only [Impl.get_payload]
          rw [if_pos hqty]
      | none =>
        rw [hpl] at hfound
        dsimp only at hfound
        cases hu : n.impl.unwrapI with
        | none =>
          rw [hu] at hfound
          simp at hfound
        | some e' =>
          rw [hu] at hfound
          obtain ⟨hie, hene⟩ := unwrapI_some hu
          have hbound : ErefBound h i e' := hie ▸ (WF_node hWF hln).2.2
          have hOK' : ERefOK h e' := erefBound_mono (Nat.le_of_lt hi_lt) hbound
          have hOK2 : ERefOK (cowHeap h i n) e' :=
            erefBound_mono (by omega)
              (erefBound_congr h (cowHeap h i n) rfl
                (fun j hj => by rw [implAt_cowHeap_old h i n j (by omega)]) hOK')
          have hrefc2 : ∀ j, e' = Error.dyn j → 2 ≤ refcAt (cowHeap h i n) j := by
            intro j hj
            subst hj
            obtain ⟨hji, hjp⟩ := hbound
            have hjlookup : (h.nodes.lookup j).isSome = true := by
              unfold implAt at hjp
              cases hl : h.nodes.lookup j with
              | none => rw [hl] at hjp; simp at hjp
              | some _ => rfl
            have hrcj : 1 ≤ refcAt h j := by
              cases hl : h.nodes.lookup j with
              | none => rw [hl] at hjlookup; simp at hjlookup
              | some m =>
                have hm := (WF_node hWF hl).2.1
                unfold refcAt
                rw [hl]
                simpa using hm
            rw [refcAt_cowHeap_inner h i n j (by omega) (by omega) hie hjlookup]
            omega
          have hfound2 : asConstF (cowHeap h i n) τ f e' = some p := by
            rw [asConstF_ext h (cowHeap h i n) τ rfl hWF
                (fun j hj => implAt_cowHeap_old h i n j (by omega)) f e' hOK']
            exact hfound
          obtain ⟨h3, k', nid, heq3, hk', hnid, hnidlt, hnext3, hsents3,
            himpl3, hC3⟩ := ih (cowHeap h i n) e' hWF2 hOK2 hrefc2 hfound2
          refine ⟨setInnerAt h3 h.next (.dyn k'), h.next, nid, ?_,
            Nat.le_refl _, by omega, ?_, ?_, ?_, ?_, ?_⟩
          · rw [asMutGo_succ, hgmi]
            dsimp only
            rw [implAt_cowHeap_new]
            dsimp only
            rw [hpl]
            dsimp only
            rw [hu]
            dsimp only
            rw [heq3]
          · show nid < h3.next
            exact hnidlt
          · show h.next ≤ h3.next
            omega
          · show (setInnerAt h3 h.next (.dyn k')).sents = h.sents
            rw [show (setInnerAt h3 h.next (.dyn k')).sents = h3.sents from rfl,
                hsents3, h2sents]
          · intro j hj
            rw [implAt_setInnerAt_ne h3 h.next j (.dyn k') (by omega),
                himpl3 j (by omega), implAt_cowHeap_old h i n j (by omega)]
          · intro q H hqty hsH hagree
            rw [asConstF_succ]
            have hHnext : implOf H (.dyn h.next) =
                some (n.impl.withInner (.dyn k')) := by
              rw [implOf_dyn,
                  hagree h.next (Nat.le_refl _) (by show h.next < h3.next; omega),
                  implAt_setPayloadAt_ne _ _ _ _ (by omega),
                  implAt_setInnerAt_self, himpl3 h.next (by omega),
                  implAt_cowHeap_new]
              rfl
            rw [hHnext]
            dsimp only
            rw [get_payload_withInner, hpl]
            dsimp only
            have hwui : (n.impl.withInner (.dyn k')).unwrapI = some (.dyn k') := by
              unfold Impl.unwrapI
              rw [innerE_withInner (by rw [hie]; exact hene) _,
                  if_neg (by intro hcon; cases hcon)]
            rw [hwui]
            refine hC3 q H hqty ?_ ?_
            · rw [hsH]
              rfl
            · intro j hjl hjr
              have hga := hagree j (by omega)
                (by show j < h3.next; exact hjr)
              rw [hga]
              by_cases hjnid : j = nid
              · subst hjnid
                rw [implAt_setPayloadAt_self, implAt_setPayloadAt_self,
                    implAt_setInnerAt_ne _ _ _ _ (by omega)]
              · rw [implAt_setPayloadAt_ne _ _ _ _ hjnid,
                    implAt_setPayloadAt_ne _ _ _ _ hjnid,
                    implAt_setInnerAt_ne _ _ _ _ (by omega)]

end Errors

namespace Errors

/-- Claim C6: for every handle holding a payload and every copy of that
handle (the copy bumps the shared node's reference count), mutable access
via `As<T>` on the copy clones the shared layers (copy-on-write), and
mutating the returned payload leaves the payload seen through the original
handle unchanged while the copy's handle sees the mutated value. -/
theorem c6_cow_isolation (h0 : Heap) (e : Error) (i τ : Nat) (p p' : PayloadVal)
    (hWF : h0.WF) (hOK : ERefOK h0 e) (he : e = .dyn i)
    (hfound : asConst h0 τ e = some p) (hty : p'.tyId = τ) :
    ∃ h1 k nid,
      asMut τ (copyError h0 e) e = (h1, .dyn k, some nid) ∧
      Error.dyn k ≠ e ∧
      asConst (setPayloadAt h1 nid p') τ e = some p ∧
      asConst (setPayloadAt h1 nid p') τ (.dyn k) = some p' := by
  subst he
  have hcimpl : ∀ j, implAt (copyError h0 (.dyn i)) j = implAt h0 j :=
    fun j => implAt_copyError h0 (.dyn i) j
  have hcsents : (copyError h0 (.dyn i)).sents = h0.sents := sents_copyError h0 _
  have hcnext : (copyError h0 (.dyn i)).next = h0.next := next_copyError h0 _
  have hWFc : (copyError h0 (.dyn i)).WF := WF_copyError hWF _
  have hOK0 : ERefOK h0 (.dyn i) := hOK
  have hOKc : ERefOK (copyError h0 (.dyn i)) (.dyn i) :=
    erefBound_congr h0 (copyError h0 (.dyn i)) hcsents
      (fun j _ => by rw [hcimpl j]) hOK0
  obtain ⟨hi_lt, hi_some⟩ := hOK
  have hfoundc : asConstF (copyError h0 (.dyn i)) τ (fuelOf h0) (.dyn i) =
      some p := by
    rw [asConstF_ext h0 (copyError h0 (.dyn i)) τ hcsents hWF
        (fun j _ => hcimpl j) (fuelOf h0) _ hOK0]
    exact hfound
  have hpres : (h0.nodes.lookup i).isSome = true := by
    unfold implAt at hi_some
    cases hl : h0.nodes.lookup i with
    | none => rw [hl] at hi_some; simp at hi_some
    | some _ => rfl
  have hrc0 : 1 ≤ refcAt h0 i := by
    cases hl : h0.nodes.lookup i with
    | none => rw [hl] at hpres; simp at hpres
    | some m =>
      have hm := (WF_node hWF hl).2.1
      unfold refcAt
      rw [hl]
      simpa using hm
  have hrc : ∀ j, (Error.dyn i) = Error.dyn j →
      2 ≤ refcAt (copyError h0 (.dyn i)) j := by
    intro j hj
    injection hj with hj
    subst hj
    rw [refcAt_copyError_dyn h0 i hpres]
    omega
  obtain ⟨h1, k, nid, heq, hk, hnid, hnidlt, hnext1, hsents1, himplold, hC⟩ :=
    asMutGo_spec τ p (fuelOf h0) (copyError h0 (.dyn i)) (.dyn i)
      hWFc hOKc hrc hfoundc
  have hk0 : h0.next ≤ k := by
    have hx := hk
    rw [hcnext] at hx
    exact hx
  have hnid0 : h0.next ≤ nid := by
    have hx := hnid
    rw [hcnext] at hx
    exact hx
  have hnext01 : h0.next ≤ h1.next := by
    have hx := hnext1
    rw [hcnext] at hx
    exact hx
  have hfuelle : fuelOf h0 ≤ fuelOf (setPayloadAt h1 nid p') := by
    show h0.next + 2 ≤ (setPayloadAt h1 nid p').next + 2
    rw [show (setPayloadAt h1 nid p').next = h1.next from rfl]
    omega
  have hasMut : asMut τ (copyError h0 (.dyn i)) (.dyn i) =
      (h1, .dyn k, some nid) := by
    unfold asMut
    rw [show asConst (copyError h0 (.dyn i)) τ (.dyn i) = some p from hfoundc]
    exact heq
  refine ⟨h1, k, nid, hasMut, ?_, ?_, ?_⟩
  · intro hcon
    injection hcon with hcon
    omega
  · show asConstF (setPayloadAt h1 nid p') τ
      (fuelOf (setPayloadAt h1 nid p')) (.dyn i) = some p
    have hsp_sents : (setPayloadAt h1 nid p').sents = h0.sents := by
      rw [show (setPayloadAt h1 nid p').sents = h1.sents from rfl, hsents1,
          hcsents]
    rw [asConstF_ext h0 (setPayloadAt h1 nid p') τ hsp_sents hWF
        (fun j hj => by
          rw [implAt_setPayloadAt_ne _ _ _ _ (by omega),
              himplold j (by rw [hcnext]; exact hj), hcimpl j])
        _ _ hOK0]
    exact asConstF_mono h0 τ (fuelOf h0) _ _ p hfound hfuelle
  · have hCres := hC p' (setPayloadAt h1 nid p') hty rfl (fun j _ _ => rfl)
    exact asConstF_mono (setPayloadAt h1 nid p') τ (fuelOf h0) _ _ p'
      hCres hfuelle

/-- Claim C6 witness: a one-layer chain holding a payload of type id 5 and
value bytes [7]; after a copy and mutation through `As` to value [9], the
original handle still reads [7] and the copy's handle reads [9]. -/
theorem c6_witness :
    (Heap.WF ⟨1, [(0, ⟨.det [101] .nil ⟨5, false, [], [7], false, []⟩, 1⟩)], []⟩ ∧
     ERefOK ⟨1, [(0, ⟨.det [101] .nil ⟨5, false, [], [7], false, []⟩, 1⟩)], []⟩ (.dyn 0) ∧
     asConst ⟨1, [(0, ⟨.det [101] .nil ⟨5, false, [], [7], false, []⟩, 1⟩)], []⟩ 5 (.dyn 0) =
       some ⟨5, false, [], [7], false, []⟩ ∧
     (PayloadVal.tyId ⟨5, false, [], [9], false, []⟩ = 5)) ∧
    (∃ h1 k nid,
      asMut 5 (copyError ⟨1, [(0, ⟨.det [101] .nil ⟨5, false, [], [7], false, []⟩, 1⟩)], []⟩
          (.dyn 0)) (.dyn 0) = (h1, .dyn k, some nid) ∧
      Error.dyn k ≠ Error.dyn 0 ∧
      asConst (setPayloadAt h1 nid ⟨5, false, [], [9], false, []⟩) 5 (.dyn 0) =
        some ⟨5, false, [], [7], false, []⟩ ∧
      asConst (setPayloadAt h1 nid ⟨5, false, [], [9], false, []⟩) 5 (.dyn k) =
        some ⟨5, false, [], [9], false, []⟩) :=
  ⟨⟨by decide, by decide, by decide, by decide⟩,
   c6_cow_isolation ⟨1, [(0, ⟨.det [101] .nil ⟨5, false, [], [7], false, []⟩, 1⟩)], []⟩
     (.dyn 0) 0 5 ⟨5, false, [], [7], false, []⟩ ⟨5, false, [], [9], false, []⟩
     (by decide) (by decide) rfl (by decide) (by decide)⟩

end Errors
